import Mathlib

/-!
# Verification of the note-relay connection and file-tree layer

Shallow embedding of the repository's connection layer
(`src/ui/src/core/connection-local.js`) and file-tree builder
(`processFileData` in the tree-management module), together with proofs of
the specification claims about them.

JavaScript strings are modelled as Lean `String`s (sequences of characters);
JSON values as the inductive `JsValue`; the single-threaded, sequentially
awaited control flow of `connect`/`send` as pure state-passing functions that
also return the trace of observable events (outbound requests, `onMessage`
invocations, status-callback invocations, console logs, theme injection).
The HTTP executor (`fetch` against `localhost:5474`) and the platform digest
primitive (`crypto.subtle.digest('SHA-256', ·)`) are external collaborators
and appear as parameters of an `Env` structure.
-/

namespace NoteRelay

/-- JavaScript/JSON values, as produced by `response.json()` and property
access. `undefined` models JavaScript `undefined` (absent property). -/
inductive JsValue where
  | null : JsValue
  | undefined : JsValue
  | bool : Bool → JsValue
  | num : Int → JsValue
  | str : String → JsValue
  | arr : List JsValue → JsValue
  | obj : List (String × JsValue) → JsValue
deriving Repr

/-- First-match lookup in an association list (JavaScript object property
lookup; object keys are unique, so first match is the match). -/
def findVal {α : Type} : List (String × α) → String → Option α
  | [], _ => none
  | kv :: rest, k => if kv.1 = k then some kv.2 else findVal rest k

/-- Update the first entry with the given key, or append a fresh entry
(JavaScript `obj[k] = v` / object-spread merge semantics: assignment to an
existing key keeps its position, a new key is appended at the end). -/
def setKey {α : Type} : List (String × α) → String → α → List (String × α)
  | [], k, v => [(k, v)]
  | kv :: rest, k, v => if kv.1 = k then (k, v) :: rest else kv :: setKey rest k v

/-- JavaScript truthiness of a value. -/
def truthy : JsValue → Bool
  | .null => false
  | .undefined => false
  | .bool b => b
  | .num n => n ≠ 0
  | .str s => s ≠ ""
  | .arr _ => true
  | .obj _ => true

/-- A thrown JavaScript error (`throw new Error(msg)`). -/
inductive JsError where
  | error : String → JsError
deriving Repr, DecidableEq

/-- JavaScript property access `v.k`: throws a `TypeError` on `null` and
`undefined`, yields the property (or `undefined`) on objects, and
`undefined` on the remaining primitives. -/
def jsGetField : JsValue → String → Except JsError JsValue
  | .null, _ => .error (.error "TypeError: cannot read properties of null")
  | .undefined, _ => .error (.error "TypeError: cannot read properties of undefined")
  | .obj fields, k => .ok ((findVal fields k).getD .undefined)
  | _, _ => .ok .undefined

/-! ## Credential hashing (`hashString`)

`connection-local.js` lines 18–24: UTF-8 encode the secret, digest with
SHA-256, then render each byte as two lowercase hexadecimal digits
(`b.toString(16).padStart(2, '0')`) and join. The digest primitive is
external (`crypto.subtle`); it enters as a parameter `digest` expected to
return 32 bytes. -/

/-- The UTF-8 bytes of a string (what `new TextEncoder().encode(str)`
produces). -/
def utf8Bytes (s : String) : List Nat :=
  s.toUTF8.toList.map (fun b => b.toNat)

/-- Lowercase hexadecimal digit for `n < 16` (JavaScript `Number.toString(16)`
digit alphabet). -/
def hexDigit (n : Nat) : Char :=
  if n < 10 then Char.ofNat (48 + n) else Char.ofNat (87 + n)

/-- Digits of `n` in base 16, most significant first
(JavaScript `n.toString(16)` for a nonnegative integer). -/
def toHexDigits (n : Nat) : List Char :=
  if h : n < 16 then [hexDigit n]
  else
    have : n / 16 < n := Nat.div_lt_self (by omega) (by omega)
    toHexDigits (n / 16) ++ [hexDigit (n % 16)]
termination_by n

/-- JavaScript `n.toString(16)` for a nonnegative integer. -/
def jsToHex (n : Nat) : String := String.mk (toHexDigits n)

/-- JavaScript `s.padStart(2, '0')`. -/
def padStart2 (s : String) : String :=
  if s.length ≥ 2 then s
  else if s.length = 1 then String.mk ('0' :: s.data)
  else "00"

/-- One byte rendered as exactly two lowercase hexadecimal characters:
`b.toString(16).padStart(2, '0')`. -/
def byteToHex2 (b : Nat) : String := padStart2 (jsToHex b)

/-- `hashString` from `connection-local.js` (and the identical helper in the
utility module): digest the UTF-8 bytes of the input and hex-encode the
resulting byte array. -/
def hashString (digest : List Nat → List Nat) (s : String) : String :=
  String.join (((digest (utf8Bytes s)).map byteToHex2))

/-- A character is a lowercase hexadecimal digit. -/
def isLowerHexChar (c : Char) : Bool :=
  ('0' ≤ c && c ≤ '9') || ('a' ≤ c && c ≤ 'f')

/-! ## The Local Transport (`LocalConnection`) -/

/-- Observable events of a run of the connection layer, in order. -/
inductive Event where
  /-- An outbound HTTP request with the given JSON body (`fetch` to
  `http://localhost:5474/api/command`). -/
  | request : List (String × JsValue) → Event
  /-- An invocation of the caller-supplied `onStatusUpdate` callback. -/
  | status : String → Event
  /-- An invocation of the `onMessage` callback. -/
  | message : JsValue → Event
  /-- Theme CSS injected into the hosting document
  (`styleTag.textContent = pingResult.data.css`). -/
  | theme : JsValue → Event
  /-- A `console.log`. -/
  | log : String → Event
deriving Repr

/-- The response the executor returns for a request: an HTTP status code and
the JSON body (`response.json()`). `response.ok` is derived from the
status. -/
structure HttpResp where
  status : Nat
  body : JsValue

/-- JavaScript `Response.ok`: status in the inclusive range 200–299. -/
def respOk (r : HttpResp) : Bool := 200 ≤ r.status && r.status < 300

/-- The external world: the platform SHA-256 digest and the command
executor reachable over loopback HTTP, as a function from request body to
response. -/
structure Env where
  digest : List Nat → List Nat
  fetch : List (String × JsValue) → HttpResp

/-- The mutable fields of a `LocalConnection` instance. `hasOnMessage`
records whether the `onMessage` callback is set, `statusCb` whether a real
`onStatusUpdate` callback was supplied to `connect` (otherwise the default
logger is used). -/
structure ConnState where
  mode : String
  authHash : Option String
  hasOnMessage : Bool
  statusCb : Bool
deriving Repr, DecidableEq

/-- `new LocalConnection()`: mode `'local'`, no auth hash, no callback, and
a startup log. -/
def mkConnection : ConnState × List Event :=
  ({ mode := "local", authHash := none, hasOnMessage := false, statusCb := false },
   [Event.log "Note Relay: Local HTTP mode"])

/-- The serialized `authHash` field: `this.authHash` is `null` before
`connect` assigns it. -/
def authToJs : Option String → JsValue
  | none => .null
  | some h => .str h

/-- The JSON request body `{ cmd, authHash: this.authHash, ...extraData }`:
the two fixed fields followed by the spread of `extraData` (later keys
override in place, new keys append). -/
def mkBody (cmd : String) (auth : Option String) (extra : List (String × JsValue)) :
    List (String × JsValue) :=
  extra.foldl (fun b kv => setKey b kv.1 kv.2)
    [("cmd", .str cmd), ("authHash", authToJs auth)]

/-- An `onStatusUpdate` invocation: the supplied callback when one was
passed, else the default `console.log` fallback. -/
def statusEvent (statusCb : Bool) (msg : String) : Event :=
  if statusCb then Event.status msg else Event.log msg

/-- The theme-injection step of `connect` (lines 47–56): if
`pingResult.data && pingResult.data.css` then set the style tag's text.
Property access can throw a `TypeError` when `pingResult` is
`null`/`undefined`. -/
def applyTheme (pingResult : JsValue) : Except JsError (List Event) :=
  match jsGetField pingResult "data" with
  | .error e => .error e
  | .ok d =>
    if truthy d then
      match jsGetField d "css" with
      | .error e => .error e
      | .ok css => if truthy css then .ok [Event.theme css] else .ok []
    else .ok []

/-- `LocalConnection.send(cmd, extraData)`: one outbound request embedding
`{cmd, authHash, ...extraData}`; a non-ok status throws
`HTTP request failed: <status>`; otherwise the parsed body is handed to
`onMessage` when the callback is set and the body is truthy, and returned. -/
def send (env : Env) (st : ConnState) (cmd : String) (extra : List (String × JsValue)) :
    Except JsError JsValue × ConnState × List Event :=
  let body := mkBody cmd st.authHash extra
  let resp := env.fetch body
  if respOk resp then
    (.ok resp.body, st,
      [Event.request body] ++
        (if st.hasOnMessage && truthy resp.body then [Event.message resp.body] else []))
  else
    (.error (.error ("HTTP request failed: " ++ toString resp.status)), st,
      [Event.request body])

/-- The `CONNECTED` push `{ type: 'CONNECTED', data: {} }` delivered on
successful connection. -/
def connectedMsg : JsValue := .obj [("type", .str "CONNECTED"), ("data", .obj [])]

/-- `LocalConnection.connect(password, onStatusUpdate)`: store the status
callback, hash the password, probe with `PING` (throwing
`Authentication Failed` on a non-ok status), inject the theme, push
`CONNECTED` when `onMessage` is set, then run the bootstrap batch
`GET_TREE`, `LOAD_TAGS`, `LOAD_GRAPH` and return `true`. Errors from any
step propagate to the caller. -/
def connect (env : Env) (st : ConnState) (password : String) (hasStatusCb : Bool) :
    Except JsError Bool × ConnState × List Event :=
  let st1 : ConnState := { st with statusCb := hasStatusCb }
  let h := hashString env.digest password
  let st2 : ConnState := { st1 with authHash := some h }
  let pingBody := mkBody "PING" (some h) []
  let resp := env.fetch pingBody
  let ev2 := [statusEvent hasStatusCb "Connecting to local vault...", Event.request pingBody]
  if respOk resp then
    match applyTheme resp.body with
    | .error e => (.error e, st2, ev2)
    | .ok evTheme =>
      let ev4 := ev2 ++ evTheme ++
        [Event.log "PING response received",
         statusEvent hasStatusCb "Authenticated. Loading vault..."] ++
        (if st2.hasOnMessage then [Event.message connectedMsg] else [])
      match send env st2 "GET_TREE" [] with
      | (.error e, _, evs) => (.error e, st2, ev4 ++ evs)
      | (.ok _, _, evs1) =>
        match send env st2 "LOAD_TAGS" [] with
        | (.error e, _, evs) => (.error e, st2, ev4 ++ evs1 ++ evs)
        | (.ok _, _, evs2) =>
          match send env st2 "LOAD_GRAPH" [] with
          | (.error e, _, evs) => (.error e, st2, ev4 ++ evs1 ++ evs2 ++ evs)
          | (.ok _, _, evs3) => (.ok true, st2, ev4 ++ evs1 ++ evs2 ++ evs3)
  else
    (.error (.error "Authentication Failed"), st2, ev2)

/-- `LocalConnection.disconnect()`: a log and nothing else — no state is
touched and no error can be thrown (the return type is total). -/
def disconnect (st : ConnState) : ConnState × List Event :=
  (st, [Event.log "Local connection closed"])

/-- The outbound request bodies of a trace, in order. -/
def requestsOf (evs : List Event) : List (List (String × JsValue)) :=
  evs.filterMap (fun e => match e with | .request b => some b | _ => none)

/-- The `onMessage` payloads of a trace, in order. -/
def messagesOf (evs : List Event) : List JsValue :=
  evs.filterMap (fun e => match e with | .message m => some m | _ => none)

/-- The `type` field of a response, when it is an object with a string
`type`. -/
def msgType (v : JsValue) : Option String :=
  match v with
  | .obj fields =>
    match findVal fields "type" with
    | some (.str s) => some s
    | _ => none
  | _ => none

/-- Whether a value is a JSON object (the shape §6 of the spec prescribes
for every executor response). -/
def isObjVal : JsValue → Bool
  | .obj _ => true
  | _ => false

/-! ### Trace bookkeeping lemmas -/

@[simp] theorem messagesOf_nil : messagesOf [] = [] := rfl

@[simp] theorem messagesOf_append (a b : List Event) :
    messagesOf (a ++ b) = messagesOf a ++ messagesOf b := by
  simp [messagesOf]

@[simp] theorem messagesOf_request_cons (b : List (String × JsValue)) (evs : List Event) :
    messagesOf (Event.request b :: evs) = messagesOf evs := by
  simp [messagesOf]

@[simp] theorem messagesOf_status_cons (s : String) (evs : List Event) :
    messagesOf (Event.status s :: evs) = messagesOf evs := by
  simp [messagesOf]

@[simp] theorem messagesOf_log_cons (s : String) (evs : List Event) :
    messagesOf (Event.log s :: evs) = messagesOf evs := by
  simp [messagesOf]

@[simp] theorem messagesOf_theme_cons (v : JsValue) (evs : List Event) :
    messagesOf (Event.theme v :: evs) = messagesOf evs := by
  simp [messagesOf]

@[simp] theorem messagesOf_message_cons (m : JsValue) (evs : List Event) :
    messagesOf (Event.message m :: evs) = m :: messagesOf evs := by
  simp [messagesOf]

@[simp] theorem messagesOf_statusEvent_cons (cb : Bool) (s : String) (evs : List Event) :
    messagesOf (statusEvent cb s :: evs) = messagesOf evs := by
  cases cb <;> simp [statusEvent]

@[simp] theorem requestsOf_nil : requestsOf [] = [] := rfl

@[simp] theorem requestsOf_append (a b : List Event) :
    requestsOf (a ++ b) = requestsOf a ++ requestsOf b := by
  simp [requestsOf]

@[simp] theorem requestsOf_request_cons (b : List (String × JsValue)) (evs : List Event) :
    requestsOf (Event.request b :: evs) = b :: requestsOf evs := by
  simp [requestsOf]

@[simp] theorem requestsOf_status_cons (s : String) (evs : List Event) :
    requestsOf (Event.status s :: evs) = requestsOf evs := by
  simp [requestsOf]

@[simp] theorem requestsOf_log_cons (s : String) (evs : List Event) :
    requestsOf (Event.log s :: evs) = requestsOf evs := by
  simp [requestsOf]

@[simp] theorem requestsOf_theme_cons (v : JsValue) (evs : List Event) :
    requestsOf (Event.theme v :: evs) = requestsOf evs := by
  simp [requestsOf]

@[simp] theorem requestsOf_message_cons (m : JsValue) (evs : List Event) :
    requestsOf (Event.message m :: evs) = requestsOf evs := by
  simp [requestsOf]

@[simp] theorem requestsOf_statusEvent_cons (cb : Bool) (s : String) (evs : List Event) :
    requestsOf (statusEvent cb s :: evs) = requestsOf evs := by
  cases cb <;> simp [statusEvent]

/-- Whatever `applyTheme` returns on the success path contains neither
requests nor `onMessage` deliveries: only theme injections. -/
theorem applyTheme_ok_events (v : JsValue) (evs : List Event)
    (h : applyTheme v = .ok evs) : messagesOf evs = [] ∧ requestsOf evs = [] := by
  unfold applyTheme at h
  split at h
  · exact absurd h (by simp)
  · split at h
    · split at h
      · exact absurd h (by simp)
      · split at h
        · injection h with h; subst h; exact ⟨rfl, rfl⟩
        · injection h with h; subst h; exact ⟨rfl, rfl⟩
    · injection h with h; subst h; exact ⟨rfl, rfl⟩

/-- Reduction of `applyTheme` on an object value. -/
theorem applyTheme_obj_eq (fields : List (String × JsValue)) :
    applyTheme (JsValue.obj fields) =
      (if truthy ((findVal fields "data").getD .undefined) then
        match jsGetField ((findVal fields "data").getD .undefined) "css" with
        | .error e => .error e
        | .ok css => if truthy css then .ok [Event.theme css] else .ok []
      else .ok []) := rfl

/-- On an object value (the shape the spec prescribes for every executor
response), `applyTheme` cannot throw. -/
theorem applyTheme_obj (fields : List (String × JsValue)) :
    ∃ evs, applyTheme (JsValue.obj fields) = .ok evs := by
  rw [applyTheme_obj_eq]
  split
  · split
    · rename_i hd _ _ hc
      rcases hv : (findVal fields "data").getD JsValue.undefined with _ | _ | b | n | s | l | fs <;>
        rw [hv] at hd hc <;> simp [jsGetField, truthy] at hd hc ⊢
    · split
      · exact ⟨_, rfl⟩
      · exact ⟨_, rfl⟩
  · exact ⟨_, rfl⟩

theorem truthy_of_isObj (v : JsValue) (h : isObjVal v = true) : truthy v = true := by
  cases v <;> simp_all [isObjVal, truthy]

theorem isObj_exists (v : JsValue) (h : isObjVal v = true) :
    ∃ fields, v = JsValue.obj fields := by
  cases v <;> simp_all [isObjVal]

/-- `send` on a success status with a truthy body: returns the body, leaves
the state untouched, one request, and one `onMessage` delivery exactly when
the callback is set. -/
theorem send_ok_char (env : Env) (st : ConnState) (cmd : String)
    (extra : List (String × JsValue))
    (hok : respOk (env.fetch (mkBody cmd st.authHash extra)) = true)
    (htr : truthy (env.fetch (mkBody cmd st.authHash extra)).body = true) :
    send env st cmd extra =
      (.ok (env.fetch (mkBody cmd st.authHash extra)).body, st,
        [Event.request (mkBody cmd st.authHash extra)] ++
          (if st.hasOnMessage then
            [Event.message (env.fetch (mkBody cmd st.authHash extra)).body]
          else [])) := by
  simp [send, hok, htr]

/-- Full characterization of `connect` against an executor that accepts
every request and answers with JSON objects (the response shape of spec §6):
the run succeeds with `true`, stores the password hash, and produces the
status updates, the `PING` request, possible theme events, the `CONNECTED`
push (when `onMessage` is set), and the three bootstrap exchanges, in
program order. -/
theorem connect_ok_spec (env : Env) (st : ConnState) (p : String) (cb : Bool)
    (hok : ∀ b, respOk (env.fetch b) = true)
    (hobj : ∀ b, isObjVal (env.fetch b).body = true) :
    ∃ evT, messagesOf evT = [] ∧ requestsOf evT = [] ∧
      connect env st p cb =
        (.ok true,
         { st with statusCb := cb, authHash := some (hashString env.digest p) },
         [statusEvent cb "Connecting to local vault...",
          Event.request (mkBody "PING" (some (hashString env.digest p)) [])] ++ evT ++
         [Event.log "PING response received",
          statusEvent cb "Authenticated. Loading vault..."] ++
         (if st.hasOnMessage then [Event.message connectedMsg] else []) ++
         ([Event.request (mkBody "GET_TREE" (some (hashString env.digest p)) [])] ++
           (if st.hasOnMessage then
             [Event.message
               (env.fetch (mkBody "GET_TREE" (some (hashString env.digest p)) [])).body]
           else [])) ++
         ([Event.request (mkBody "LOAD_TAGS" (some (hashString env.digest p)) [])] ++
           (if st.hasOnMessage then
             [Event.message
               (env.fetch (mkBody "LOAD_TAGS" (some (hashString env.digest p)) [])).body]
           else [])) ++
         ([Event.request (mkBody "LOAD_GRAPH" (some (hashString env.digest p)) [])] ++
           (if st.hasOnMessage then
             [Event.message
               (env.fetch (mkBody "LOAD_GRAPH" (some (hashString env.digest p)) [])).body]
           else []))) := by
  have htr : ∀ b, truthy (env.fetch b).body = true :=
    fun b => truthy_of_isObj _ (hobj b)
  obtain ⟨fields, hfe⟩ :=
    isObj_exists _ (hobj (mkBody "PING" (some (hashString env.digest p)) []))
  obtain ⟨evT, hT⟩ := applyTheme_obj fields
  have hT' : applyTheme
      (env.fetch (mkBody "PING" (some (hashString env.digest p)) [])).body = .ok evT := by
    rw [hfe]; exact hT
  obtain ⟨hTm, hTr⟩ := applyTheme_ok_events _ _ hT'
  refine ⟨evT, hTm, hTr, ?_⟩
  simp [connect, send, hok, hT', htr]

@[simp] theorem requestsOf_ite_message (c : Prop) [Decidable c] (m : JsValue) :
    requestsOf (if c then [Event.message m] else []) = [] := by
  split <;> simp

@[simp] theorem messagesOf_ite_message (c : Prop) [Decidable c] (m : JsValue) :
    messagesOf (if c then [Event.message m] else []) = (if c then [m] else []) := by
  split <;> simp

/-- `send` always issues exactly one request, carrying the assembled body. -/
theorem send_requests (env : Env) (st : ConnState) (cmd : String)
    (extra : List (String × JsValue)) :
    requestsOf (send env st cmd extra).2.2 = [mkBody cmd st.authHash extra] := by
  by_cases hok : respOk (env.fetch (mkBody cmd st.authHash extra)) = true
  · simp [send, hok]
  · simp [send, hok]

/-- `mkBody` with no extra payload is the two fixed fields. -/
theorem mkBody_nil (cmd : String) (a : Option String) :
    mkBody cmd a [] = [("cmd", .str cmd), ("authHash", authToJs a)] := rfl

/-- Every request body `connect` ever sends is a bare
`{cmd, authHash: hash(password)}` object: the plaintext password appears
nowhere, only its hash. -/
theorem connect_requests_shape (env : Env) (st : ConnState) (p : String) (cb : Bool) :
    ∀ b ∈ requestsOf (connect env st p cb).2.2,
      ∃ c, b = [("cmd", .str c), ("authHash", .str (hashString env.digest p))] := by
  intro b hb
  simp only [connect] at hb
  split at hb
  · -- probe accepted
    split at hb
    · -- theme step threw
      simp [mkBody_nil, authToJs] at hb
      exact ⟨"PING", hb⟩
    · rename_i evT hT
      obtain ⟨-, hTr⟩ := applyTheme_ok_events _ _ hT
      split at hb
      · rename_i e snd evs heq
        have h1 := send_requests env
          { st with statusCb := cb, authHash := some (hashString env.digest p) } "GET_TREE" []
        rw [heq] at h1
        simp [hTr, h1, mkBody_nil, authToJs] at hb
        rcases hb with hb | hb <;> exact ⟨_, hb⟩
      · rename_i v1 snd1 evs1 heq1
        have h1 := send_requests env
          { st with statusCb := cb, authHash := some (hashString env.digest p) } "GET_TREE" []
        rw [heq1] at h1
        split at hb
        · rename_i e snd evs heq
          have h2 := send_requests env
            { st with statusCb := cb, authHash := some (hashString env.digest p) } "LOAD_TAGS" []
          rw [heq] at h2
          simp [hTr, h1, h2, mkBody_nil, authToJs] at hb
          rcases hb with hb | hb | hb <;> exact ⟨_, hb⟩
        · rename_i v2 snd2 evs2 heq2
          have h2 := send_requests env
            { st with statusCb := cb, authHash := some (hashString env.digest p) } "LOAD_TAGS" []
          rw [heq2] at h2
          split at hb
          · rename_i e snd evs heq
            have h3 := send_requests env
              { st with statusCb := cb, authHash := some (hashString env.digest p) } "LOAD_GRAPH" []
            rw [heq] at h3
            simp [hTr, h1, h2, h3, mkBody_nil, authToJs] at hb
            rcases hb with hb | hb | hb | hb <;> exact ⟨_, hb⟩
          · rename_i v3 snd3 evs3 heq3
            have h3 := send_requests env
              { st with statusCb := cb, authHash := some (hashString env.digest p) } "LOAD_GRAPH" []
            rw [heq3] at h3
            simp [hTr, h1, h2, h3, mkBody_nil, authToJs] at hb
            rcases hb with hb | hb | hb | hb <;> exact ⟨_, hb⟩
  · -- probe rejected
    simp [mkBody_nil, authToJs] at hb
    exact ⟨"PING", hb⟩

/-! ## Claim theorems -/

/-- **C1** (confirmed): against an executor that accepts every request and
returns JSON objects, `connect` issues exactly one `PING` request first and
then `GET_TREE`, `LOAD_TAGS`, `LOAD_GRAPH` in exactly that order, succeeds
with `true`, and — when `onMessage` is set — each of the three bootstrap
commands produces exactly one `onMessage` invocation carrying that command's
response (after the initial `CONNECTED` push). -/
theorem connect_bootstrap_sequence (env : Env) (st : ConnState) (p : String) (cb : Bool)
    (hok : ∀ b, respOk (env.fetch b) = true)
    (hobj : ∀ b, isObjVal (env.fetch b).body = true) :
    (connect env st p cb).1 = .ok true ∧
    requestsOf (connect env st p cb).2.2 =
      [mkBody "PING" (some (hashString env.digest p)) [],
       mkBody "GET_TREE" (some (hashString env.digest p)) [],
       mkBody "LOAD_TAGS" (some (hashString env.digest p)) [],
       mkBody "LOAD_GRAPH" (some (hashString env.digest p)) []] ∧
    (st.hasOnMessage = true →
      messagesOf (connect env st p cb).2.2 =
        [connectedMsg,
         (env.fetch (mkBody "GET_TREE" (some (hashString env.digest p)) [])).body,
         (env.fetch (mkBody "LOAD_TAGS" (some (hashString env.digest p)) [])).body,
         (env.fetch (mkBody "LOAD_GRAPH" (some (hashString env.digest p)) [])).body]) := by
  obtain ⟨evT, hTm, hTr, heq⟩ := connect_ok_spec env st p cb hok hobj
  rw [heq]
  refine ⟨rfl, ?_, fun hm => ?_⟩
  · simp [hTr]
  · simp [hm, hTm]

/-- Witness for C1 at a concrete executor and state. -/
theorem connect_bootstrap_sequence_witness :
    (connect ⟨fun _ => [], fun _ => ⟨200, .obj [("type", .str "TREE")]⟩⟩
        ⟨"local", none, true, false⟩ "vault123" true).1 = .ok true ∧
    requestsOf (connect ⟨fun _ => [], fun _ => ⟨200, .obj [("type", .str "TREE")]⟩⟩
        ⟨"local", none, true, false⟩ "vault123" true).2.2 =
      [mkBody "PING" (some "") [], mkBody "GET_TREE" (some "") [],
       mkBody "LOAD_TAGS" (some "") [], mkBody "LOAD_GRAPH" (some "") []] ∧
    messagesOf (connect ⟨fun _ => [], fun _ => ⟨200, .obj [("type", .str "TREE")]⟩⟩
        ⟨"local", none, true, false⟩ "vault123" true).2.2 =
      [connectedMsg, .obj [("type", .str "TREE")], .obj [("type", .str "TREE")],
       .obj [("type", .str "TREE")]] := by
  have h := connect_bootstrap_sequence
    ⟨fun _ => [], fun _ => ⟨200, .obj [("type", .str "TREE")]⟩⟩
    ⟨"local", none, true, false⟩ "vault123" true (fun _ => rfl) (fun _ => rfl)
  exact ⟨h.1, h.2.1, h.2.2 rfl⟩

/-- **C3** (confirmed): when the executor rejects the `PING` probe, `connect`
throws `Authentication Failed` to the caller, delivers no message at all (in
particular no `CONNECTED` — the session stays disconnected), and issues no
request beyond the probe. -/
theorem connect_auth_failure (env : Env) (st : ConnState) (p : String) (cb : Bool)
    (hping : respOk (env.fetch (mkBody "PING" (some (hashString env.digest p)) [])) = false) :
    (connect env st p cb).1 = .error (.error "Authentication Failed") ∧
    messagesOf (connect env st p cb).2.2 = [] ∧
    requestsOf (connect env st p cb).2.2 =
      [mkBody "PING" (some (hashString env.digest p)) []] := by
  simp [connect, hping]

/-- Witness for C3 at a concrete rejecting executor. -/
theorem connect_auth_failure_witness :
    (connect ⟨fun _ => [], fun _ => ⟨401, .null⟩⟩
        ⟨"local", none, true, false⟩ "wrongpass" true).1 =
      .error (.error "Authentication Failed") ∧
    messagesOf (connect ⟨fun _ => [], fun _ => ⟨401, .null⟩⟩
        ⟨"local", none, true, false⟩ "wrongpass" true).2.2 = [] := by
  have h := connect_auth_failure ⟨fun _ => [], fun _ => ⟨401, .null⟩⟩
    ⟨"local", none, true, false⟩ "wrongpass" true rfl
  exact ⟨h.1, h.2.1⟩

/-- **C5** (confirmed): the plaintext secret never appears in any request —
all of `connect`'s behaviour depends on the password only through its hash
(two secrets with equal hashes produce identical runs, requests included),
and every request body is exactly `{cmd, authHash: hash(password)}`. -/
theorem connect_hash_noninterference (env : Env) (st : ConnState) (cb : Bool)
    (p1 p2 : String)
    (hh : hashString env.digest p1 = hashString env.digest p2) :
    connect env st p1 cb = connect env st p2 cb ∧
    (∀ b ∈ requestsOf (connect env st p1 cb).2.2,
      ∃ c, b = [("cmd", .str c), ("authHash", .str (hashString env.digest p1))]) := by
  exact ⟨by simp only [connect, hh], connect_requests_shape env st p1 cb⟩

/-- Witness for C5 at a concrete input. -/
theorem connect_hash_noninterference_witness :
    connect ⟨fun _ => [], fun _ => ⟨200, .obj []⟩⟩ ⟨"local", none, false, false⟩ "s" true =
      connect ⟨fun _ => [], fun _ => ⟨200, .obj []⟩⟩ ⟨"local", none, false, false⟩ "s" true ∧
    (∀ b ∈ requestsOf (connect ⟨fun _ => [], fun _ => ⟨200, .obj []⟩⟩
        ⟨"local", none, false, false⟩ "s" true).2.2,
      ∃ c, b = [("cmd", .str c),
        ("authHash", .str (hashString (fun _ => []) "s"))]) :=
  connect_hash_noninterference ⟨fun _ => [], fun _ => ⟨200, .obj []⟩⟩
    ⟨"local", none, false, false⟩ true "s" "s" rfl

/-- **C7** (confirmed): `send` resolves with the parsed body exactly when the
request reports a success status, and otherwise rejects with the
`HTTP request failed` error naming the status — a non-success status is
never silently swallowed. -/
theorem send_rejects_on_failure (env : Env) (st : ConnState) (cmd : String)
    (extra : List (String × JsValue)) :
    (send env st cmd extra).1 =
      (if respOk (env.fetch (mkBody cmd st.authHash extra)) then
        Except.ok (env.fetch (mkBody cmd st.authHash extra)).body
      else
        Except.error (JsError.error
          ("HTTP request failed: " ++ toString (env.fetch (mkBody cmd st.authHash extra)).status))) ∧
    (send env st cmd extra).1.isOk = respOk (env.fetch (mkBody cmd st.authHash extra)) := by
  by_cases hok : respOk (env.fetch (mkBody cmd st.authHash extra)) = true
  · simp [send, hok, Except.isOk, Except.toBool]
  · simp [send, hok, Except.isOk, Except.toBool]

/-- **C8** (confirmed): `disconnect` never touches the connection state and
cannot throw (its type is total): the first call already returns the state
unchanged, so a second call is a no-op leaving exactly the same state, and
its observable effect is the same single log line. -/
theorem disconnect_idempotent (st : ConnState) :
    (disconnect st).1 = st ∧
    disconnect ((disconnect st).1) = disconnect st := ⟨rfl, rfl⟩

/-- **C10** (confirmed): with the `onMessage` callback unset, `connect`
still succeeds and returns `true`, but no message is delivered anywhere —
the `CONNECTED` push is dropped: the resulting state records only the new
auth hash and status callback (there is no queue in the connection), and no
error is raised; likewise a successful `send` returns the response while
delivering nothing. -/
theorem connect_without_onMessage (env : Env) (st : ConnState) (p : String) (cb : Bool)
    (hok : ∀ b, respOk (env.fetch b) = true)
    (hobj : ∀ b, isObjVal (env.fetch b).body = true)
    (hnom : st.hasOnMessage = false) :
    (connect env st p cb).1 = .ok true ∧
    messagesOf (connect env st p cb).2.2 = [] ∧
    (connect env st p cb).2.1 =
      { st with statusCb := cb, authHash := some (hashString env.digest p) } ∧
    (∀ cmd extra, (send env st cmd extra).1 = .ok (env.fetch (mkBody cmd st.authHash extra)).body ∧
      messagesOf (send env st cmd extra).2.2 = []) := by
  obtain ⟨evT, hTm, hTr, heq⟩ := connect_ok_spec env st p cb hok hobj
  rw [heq]
  refine ⟨rfl, by simp [hTm, hnom], rfl, fun cmd extra => ?_⟩
  rw [send_ok_char env st cmd extra (hok _) (truthy_of_isObj _ (hobj _))]
  simp [hnom]

/-- Witness for C10 at a concrete executor with the callback unset. -/
theorem connect_without_onMessage_witness :
    (connect ⟨fun _ => [], fun _ => ⟨204, .obj [("type", .str "PONG")]⟩⟩
        ⟨"local", none, false, false⟩ "pw" false).1 = .ok true ∧
    messagesOf (connect ⟨fun _ => [], fun _ => ⟨204, .obj [("type", .str "PONG")]⟩⟩
        ⟨"local", none, false, false⟩ "pw" false).2.2 = [] := by
  have h := connect_without_onMessage
    ⟨fun _ => [], fun _ => ⟨204, .obj [("type", .str "PONG")]⟩⟩
    ⟨"local", none, false, false⟩ "pw" false (fun _ => rfl) (fun _ => rfl) rfl
  exact ⟨h.1, h.2.1⟩

/-! ## Hex-encoding lemmas for the Credential Hasher -/

theorem toHexDigits_lt16 (n : Nat) (h : n < 16) : toHexDigits n = [hexDigit n] := by
  rw [toHexDigits]; simp [h]

theorem toHexDigits_byte (n : Nat) (h16 : 16 ≤ n) (h : n < 256) :
    toHexDigits n = [hexDigit (n / 16), hexDigit (n % 16)] := by
  rw [toHexDigits]
  have hn : ¬ n < 16 := by omega
  simp only [hn, dif_neg, not_false_iff]
  rw [toHexDigits_lt16 (n / 16) (by omega)]
  rfl

theorem hexDigit_isLowerHex (n : Nat) (h : n < 16) : isLowerHexChar (hexDigit n) = true := by
  interval_cases n <;> decide

theorem data_append (s t : String) : (s ++ t).data = s.data ++ t.data := by
  cases s; cases t; rfl

/-- `byteToHex2` of a byte is two characters, both lowercase hex digits. -/
theorem byteToHex2_spec (b : Nat) (h : b < 256) :
    (byteToHex2 b).data.length = 2 ∧
    ∀ c ∈ (byteToHex2 b).data, isLowerHexChar c = true := by
  by_cases h16 : b < 16
  · unfold byteToHex2 jsToHex
    rw [toHexDigits_lt16 b h16]
    refine ⟨rfl, ?_⟩
    intro c hc
    simp only [padStart2, String.length] at hc
    simp at hc
    rcases hc with rfl | rfl
    · decide
    · exact hexDigit_isLowerHex b h16
  · unfold byteToHex2 jsToHex
    rw [toHexDigits_byte b (by omega) h]
    refine ⟨rfl, ?_⟩
    intro c hc
    simp only [padStart2, String.length] at hc
    simp at hc
    rcases hc with rfl | rfl
    · exact hexDigit_isLowerHex _ (by omega)
    · exact hexDigit_isLowerHex _ (Nat.mod_lt _ (by omega))

theorem join_data (l : List String) : (String.join l).data = (l.map String.data).flatten := by
  have aux : ∀ (l : List String) (init : String),
      (l.foldl (fun r s => r ++ s) init).data = init.data ++ (l.map String.data).flatten := by
    intro l
    induction l with
    | nil => intro init; simp
    | cons a t ih =>
      intro init
      simp only [List.foldl_cons, ih, data_append, List.map_cons, List.flatten]
      simp
  simpa using aux l ""

theorem sum_map_const_of_mem {α : Type} (l : List α) (f : α → Nat) (c : Nat)
    (h : ∀ a ∈ l, f a = c) : (l.map f).sum = c * l.length := by
  induction l with
  | nil => simp
  | cons a t ih =>
    have h1 := h a (List.mem_cons_self a t)
    have h2 := ih (fun x hx => h x (List.mem_cons_of_mem _ hx))
    simp [h1, h2, Nat.mul_succ, Nat.add_comm]

/-- The length of a join of equal-length pieces. -/
theorem join_length (l : List String) (c : Nat) (h : ∀ s ∈ l, s.data.length = c) :
    (String.join l).length = c * l.length := by
  show (String.join l).data.length = c * l.length
  rw [join_data, List.length_flatten, List.map_map]
  exact sum_map_const_of_mem l _ c h

/-- **C4** (confirmed): `hashString` is a pure function — repeated calls on
the same input yield the same output — and, for a digest primitive that
returns 32 bytes (SHA-256), its output is a 64-character string of lowercase
hexadecimal digits. -/
theorem hashString_deterministic_hex (digest : List Nat → List Nat)
    (hlen : ∀ bs, (digest bs).length = 32)
    (hbyte : ∀ bs, ∀ b ∈ digest bs, b < 256) (s : String) :
    hashString digest s = hashString digest s ∧
    (hashString digest s).length = 64 ∧
    ∀ c ∈ (hashString digest s).data, isLowerHexChar c = true := by
  refine ⟨rfl, ?_, ?_⟩
  · have hall : ∀ x ∈ List.map byteToHex2 (digest (utf8Bytes s)), x.data.length = 2 := by
      intro x hx
      obtain ⟨b, hb, rfl⟩ := List.mem_map.mp hx
      exact (byteToHex2_spec b (hbyte _ b hb)).1
    rw [hashString, join_length _ 2 hall, List.length_map, hlen]
  · intro c hc
    rw [hashString, join_data] at hc
    rw [List.mem_flatten] at hc
    obtain ⟨piece, hpiece, hcp⟩ := hc
    rw [List.map_map, List.mem_map] at hpiece
    obtain ⟨b, hb, rfl⟩ := hpiece
    exact (byteToHex2_spec b (hbyte _ b hb)).2 c hcp

/-- Witness for C4 with a concrete 32-byte digest and secret. -/
theorem hashString_deterministic_hex_witness :
    (hashString (fun _ => List.replicate 32 0) "vault123").length = 64 ∧
    ∀ c ∈ (hashString (fun _ => List.replicate 32 0) "vault123").data,
      isLowerHexChar c = true :=
  ⟨(hashString_deterministic_hex (fun _ => List.replicate 32 0)
      (fun _ => by simp)
      (fun _ b hb => by rw [List.eq_of_mem_replicate hb]; omega) "vault123").2.1,
   (hashString_deterministic_hex (fun _ => List.replicate 32 0)
      (fun _ => by simp)
      (fun _ b hb => by rw [List.eq_of_mem_replicate hb]; omega) "vault123").2.2⟩

/-! ## C2: the `CONNECTED` push -/

/-- All `onMessage` deliveries of a single `send` carry the fetched body. -/
theorem send_messages_sub (env : Env) (st : ConnState) (cmd : String)
    (extra : List (String × JsValue)) :
    ∀ m ∈ messagesOf (send env st cmd extra).2.2,
      m = (env.fetch (mkBody cmd st.authHash extra)).body := by
  intro m hm
  by_cases hok : respOk (env.fetch (mkBody cmd st.authHash extra)) = true
  · simp only [send, hok, if_true] at hm
    simp at hm
    rcases hm with ⟨-, hm⟩
    exact hm
  · simp [send, hok] at hm

/-- **C2 (amended)** (proved): in a run where `connect` succeeds with the
`onMessage` callback set and no executor response body itself carries type
`CONNECTED`, the transport-generated `CONNECTED` push is the first message
delivered and the only `CONNECTED`-typed one; it is part of `connect`'s own
trace, hence delivered before `connect` returns. -/
theorem connect_connected_first (env : Env) (st : ConnState) (p : String) (cb : Bool)
    (hcb : st.hasOnMessage = true)
    (hsucc : (connect env st p cb).1 = .ok true)
    (hnc : ∀ b, ¬ msgType (env.fetch b).body = some "CONNECTED") :
    (messagesOf (connect env st p cb).2.2).head? = some connectedMsg ∧
    (messagesOf (connect env st p cb).2.2).countP
      (fun m => msgType m == some "CONNECTED") = 1 := by
  have hcount : ∀ (st' : ConnState) (cmd : String) (evs : List Event)
      (v : Except JsError JsValue) (snd : ConnState),
      send env st' cmd [] = (v, snd, evs) →
      (messagesOf evs).countP (fun m => msgType m == some "CONNECTED") = 0 := by
    intro st' cmd evs v snd heq
    apply List.countP_eq_zero.mpr
    intro m hm
    have := send_messages_sub env st' cmd []
    rw [heq] at this
    have hm' := this m hm
    subst hm'
    simp [hnc]
  simp only [connect] at hsucc ⊢
  split at hsucc
  · rename_i hok
    split at hsucc
    · exact absurd hsucc (by simp)
    · rename_i evT hT
      obtain ⟨hTm, -⟩ := applyTheme_ok_events _ _ hT
      split at hsucc
      · exact absurd hsucc (by simp)
      · rename_i v1 snd1 evs1 heq1
        split at hsucc
        · exact absurd hsucc (by simp)
        · rename_i v2 snd2 evs2 heq2
          split at hsucc
          · exact absurd hsucc (by simp)
          · rename_i v3 snd3 evs3 heq3
            have c1 := hcount _ _ _ _ _ heq1
            have c2 := hcount _ _ _ _ _ heq2
            have c3 := hcount _ _ _ _ _ heq3
            constructor
            · simp [hok, hT, heq1, heq2, heq3, hTm, hcb]
            · simp [hok, hT, heq1, heq2, heq3, hTm, hcb, List.countP_append,
                c1, c2, c3, List.countP_cons]
              rfl
  · exact absurd hsucc (by simp)

/-- **C2 counterexample**: the claim fails as stated. First, a successful
`connect` with the `onMessage` callback unset delivers zero `CONNECTED`
messages, not exactly one. Second, with the callback set but an executor
whose `GET_TREE` response itself carries type `CONNECTED`, two
`CONNECTED`-typed messages reach `onMessage`. -/
theorem connect_connected_counterexample :
    ((connect ⟨fun _ => [], fun _ => ⟨200, .obj [("type", .str "TREE")]⟩⟩
        ⟨"local", none, false, false⟩ "pw" true).1 = .ok true ∧
     (messagesOf (connect ⟨fun _ => [], fun _ => ⟨200, .obj [("type", .str "TREE")]⟩⟩
        ⟨"local", none, false, false⟩ "pw" true).2.2).countP
        (fun m => msgType m == some "CONNECTED") = 0) ∧
    ((connect ⟨fun _ => [],
        fun b => match findVal b "cmd" with
          | some (.str "GET_TREE") => ⟨200, .obj [("type", .str "CONNECTED")]⟩
          | _ => ⟨200, .obj [("type", .str "PONG")]⟩⟩
        ⟨"local", none, true, false⟩ "pw" true).1 = .ok true ∧
     (messagesOf (connect ⟨fun _ => [],
        fun b => match findVal b "cmd" with
          | some (.str "GET_TREE") => ⟨200, .obj [("type", .str "CONNECTED")]⟩
          | _ => ⟨200, .obj [("type", .str "PONG")]⟩⟩
        ⟨"local", none, true, false⟩ "pw" true).2.2).countP
        (fun m => msgType m == some "CONNECTED") = 2) := by
  refine ⟨⟨rfl, rfl⟩, ⟨rfl, rfl⟩⟩

/-- Witness for the amended C2 at a concrete well-behaved executor. -/
theorem connect_connected_first_witness :
    (messagesOf (connect ⟨fun _ => [], fun _ => ⟨200, .obj [("type", .str "TREE")]⟩⟩
        ⟨"local", none, true, false⟩ "pw" true).2.2).head? = some connectedMsg ∧
    (messagesOf (connect ⟨fun _ => [], fun _ => ⟨200, .obj [("type", .str "TREE")]⟩⟩
        ⟨"local", none, true, false⟩ "pw" true).2.2).countP
      (fun m => msgType m == some "CONNECTED") = 1 := by
  have hnc : ∀ b, ¬ msgType ((⟨fun _ => [],
      fun _ => ⟨200, .obj [("type", .str "TREE")]⟩⟩ : Env).fetch b).body =
      some "CONNECTED" := by intro b h; simp [msgType, findVal] at h
  exact connect_connected_first ⟨fun _ => [], fun _ => ⟨200, .obj [("type", .str "TREE")]⟩⟩
    ⟨"local", none, true, false⟩ "pw" true rfl rfl hnc

/-! ## C6: `send` on a disconnected transport -/

/-- **C6 counterexample**: `send` on a transport that has never connected
does not fail fast: against an accepting executor it issues the request
(with `authHash: null`) and resolves successfully, so network I/O is
attempted and no `TransportError`/`NotConnected` condition is raised. -/
theorem send_disconnected_counterexample :
    (send ⟨fun _ => [], fun _ => ⟨200, .obj [("type", .str "FILE")]⟩⟩
        (mkConnection).1 "GET_FILE" [("path", .str "a.md")]).1 =
      .ok (.obj [("type", .str "FILE")]) ∧
    requestsOf (send ⟨fun _ => [], fun _ => ⟨200, .obj [("type", .str "FILE")]⟩⟩
        (mkConnection).1 "GET_FILE" [("path", .str "a.md")]).2.2 =
      [[("cmd", .str "GET_FILE"), ("authHash", .null), ("path", .str "a.md")]] :=
  ⟨rfl, rfl⟩

/-- **C6 (amended)** (proved): `send` on a never-connected transport
(`authHash` still `null`) performs exactly one outbound request whose
`authHash` field is `null`; it succeeds when the executor reports success
and rejects with the `HTTP request failed` error otherwise — there is no
client-side `NotConnected` check and no fail-fast path. -/
theorem send_disconnected_amended (env : Env) (st : ConnState) (cmd : String)
    (extra : List (String × JsValue)) (hna : st.authHash = none) :
    requestsOf (send env st cmd extra).2.2 = [mkBody cmd none extra] ∧
    (send env st cmd extra).1 =
      (if respOk (env.fetch (mkBody cmd none extra)) then
        Except.ok (env.fetch (mkBody cmd none extra)).body
      else
        Except.error (JsError.error
          ("HTTP request failed: " ++ toString (env.fetch (mkBody cmd none extra)).status))) := by
  constructor
  · have h1 := send_requests env st cmd extra
    rw [hna] at h1
    exact h1
  · by_cases hok : respOk (env.fetch (mkBody cmd none extra)) = true
    · simp [send, hna, hok]
    · simp [send, hna, hok]

/-- Witness for the amended C6 at a concrete rejecting executor. -/
theorem send_disconnected_amended_witness :
    requestsOf (send ⟨fun _ => [], fun _ => ⟨500, .null⟩⟩
        ⟨"local", none, true, true⟩ "GET_FILE" [("path", .str "a.md")]).2.2 =
      [mkBody "GET_FILE" none [("path", .str "a.md")]] ∧
    (send ⟨fun _ => [], fun _ => ⟨500, .null⟩⟩
        ⟨"local", none, true, true⟩ "GET_FILE" [("path", .str "a.md")]).1 =
      (if respOk ((⟨fun _ => [], fun _ => ⟨500, .null⟩⟩ : Env).fetch
          (mkBody "GET_FILE" none [("path", .str "a.md")])) then
        Except.ok ((⟨fun _ => [], fun _ => ⟨500, .null⟩⟩ : Env).fetch
          (mkBody "GET_FILE" none [("path", .str "a.md")])).body
      else
        Except.error (JsError.error
          ("HTTP request failed: " ++ toString ((⟨fun _ => [], fun _ => ⟨500, .null⟩⟩ : Env).fetch
            (mkBody "GET_FILE" none [("path", .str "a.md")])).status))) :=
  send_disconnected_amended ⟨fun _ => [], fun _ => ⟨500, .null⟩⟩
    ⟨"local", none, true, true⟩ "GET_FILE" [("path", .str "a.md")] rfl

/-! ## The file-tree builder (`processFileData`)

The tree-management module builds a folder trie and a tag trie from the
file list. JavaScript objects used as string-keyed dictionaries (`_sub`)
become insertion-ordered association lists; `String.split('/')` is modelled
character-exactly by `splitSlash`. -/

/-- JavaScript `s.split('/')` on the character list: `""` splits to `[""]`,
separators at the ends produce empty pieces. -/
def splitSlash : List Char → List (List Char)
  | [] => [[]]
  | c :: cs =>
    if c = '/' then [] :: splitSlash cs
    else
      match splitSlash cs with
      | [] => [[c]]
      | l :: ls => (c :: l) :: ls

/-- JavaScript `s.split('/')`. -/
def jsSplit (s : String) : List String := (splitSlash s.data).map String.mk

/-- The directory part of a path: `const parts = f.path.split('/'); parts.pop()`. -/
def dirParts (path : String) : List String := (jsSplit path).dropLast

/-- One step of the folder-path accumulation:
`folderPath = folderPath ? folderPath + '/' + part : part` (string
truthiness: the empty accumulator restarts from the part alone). -/
def joinStep (folderPath part : String) : String :=
  if folderPath = "" then part else folderPath ++ "/" ++ part

/-- The folder path obtained by accumulating the given parts from the empty
string. -/
def joinParts (parts : List String) : String := List.foldl joinStep "" parts

/-- `Set.add` with JavaScript insertion order. -/
def addFolder (acc : List String) (p : String) : List String :=
  if p ∈ acc then acc else acc ++ [p]

/-- The inner loop of the first pass: add every accumulated folder prefix of
the given parts to the set. -/
def addPrefixes (acc : List String) (folderPath : String) : List String → List String
  | [] => acc
  | part :: rest =>
    addPrefixes (addFolder acc (joinStep folderPath part)) (joinStep folderPath part) rest

/-- A vault file as consumed by `processFileData`: a path and the optional
`tags` array (`if (f.tags)`). -/
structure FileEntry where
  path : String
  tags : Option (List String)
deriving Repr, DecidableEq

/-- A trie node `{ _files: [...], _sub: {...} }`. -/
inductive Tree where
  | node : List FileEntry → List (String × Tree) → Tree

def Tree.files : Tree → List FileEntry
  | .node fs _ => fs

def Tree.sub : Tree → List (String × Tree)
  | .node _ s => s

/-- `new Set(folders)` followed by the first `files.forEach` pass: the
deduplicated folder paths, input `folders` first, then every accumulated
prefix of every file's directory path, in insertion order. -/
def allFoldersOf (files : List FileEntry) (folders : List String) : List String :=
  files.foldl (fun acc f => addPrefixes acc "" (dirParts f.path))
    (folders.foldl addFolder [])

/-- The own property names of `Object.prototype`: reading `obj[k]` on a
plain `{}` literal for one of these `k`s yields the **inherited** member
(a truthy function, or `Object.prototype` itself for `__proto__`) even when
`k` was never assigned on `obj`. -/
def protoKeys : List String :=
  ["constructor", "hasOwnProperty", "isPrototypeOf", "propertyIsEnumerable",
   "toLocaleString", "toString", "valueOf", "__proto__", "__defineGetter__",
   "__defineSetter__", "__lookupGetter__", "__lookupSetter__"]

/-- The outcome of the JavaScript read `subObj[k]` on a `_sub` dictionary:
an own entry (always a trie node here), a truthy non-node member inherited
from `Object.prototype`, or `undefined`. Own properties shadow inherited
ones. -/
inductive SubLookup where
  | own : Tree → SubLookup
  | inherited : SubLookup
  | missing : SubLookup

def subGet (sub : List (String × Tree)) (k : String) : SubLookup :=
  match findVal sub k with
  | some c => .own c
  | none => if k ∈ protoKeys then .inherited else .missing

/-- The second pass' inner loop: walk the parts from the given node,
creating `{_files: [], _sub: {}}` children where `current._sub[part]` is
falsy. An **inherited** `Object.prototype` member is truthy, so the guard
skips creation and `current` becomes a non-node; the loop then ends quietly
if that part was last, and otherwise the next `current._sub[part]` read is
a `TypeError` (`none`). -/
def insertChain : Tree → List String → Option Tree
  | t, [] => some t
  | .node fs sub, p :: ps =>
    match subGet sub p with
    | .own c =>
      match insertChain c ps with
      | none => none
      | some c2 => some (.node fs (setKey sub p c2))
    | .inherited =>
      match ps with
      | [] => some (.node fs sub)
      | _ :: _ => none
    | .missing =>
      match insertChain (.node [] []) ps with
      | none => none
      | some c2 => some (.node fs (sub ++ [(p, c2)]))

/-- The third pass' folder placement: walk the directory parts **without
creating** children (`current = current._sub[part]`), then push the file.
A missing child makes `current` `undefined` and an inherited
`Object.prototype` member makes it a non-node; either way the next
`._sub[part]` or the final `._files.push` is a `TypeError` (`none`). An
empty parts list is the root `_files` push. -/
def pushFileAt : Tree → List String → FileEntry → Option Tree
  | .node fs sub, [], f => some (.node (fs ++ [f]) sub)
  | .node fs sub, p :: ps, f =>
    match subGet sub p with
    | .own c =>
      match pushFileAt c ps f with
      | none => none
      | some c2 => some (.node fs (setKey sub p c2))
    | .inherited => none
    | .missing => none

/-- JavaScript `rawTag.replace('#', '')`: remove the **first** occurrence
only. -/
def removeFirstChar (c : Char) : List Char → List Char
  | [] => []
  | x :: xs => if x = c then xs else x :: removeFirstChar c xs

def jsReplaceHash (s : String) : String := String.mk (removeFirstChar '#' s.data)

/-- The tag walk: descend (creating empty children where the lookup is
falsy) and push the file into **every** node along the tag's segments
(`tCurrent = tCurrent._sub[part]; tCurrent._files.push(f)`). A truthy
inherited `Object.prototype` member short-circuits the creation guard and
the immediate `._files.push` on it is a `TypeError` (`none`). -/
def insertTagChain : Tree → List String → FileEntry → Option Tree
  | t, [], _ => some t
  | .node fs sub, p :: ps, f =>
    match subGet sub p with
    | .own c =>
      match insertTagChain (.node (c.files ++ [f]) c.sub) ps f with
      | none => none
      | some c2 => some (.node fs (setKey sub p c2))
    | .inherited => none
    | .missing =>
      match insertTagChain (.node [f] []) ps f with
      | none => none
      | some c2 => some (.node fs (sub ++ [(p, c2)]))

/-- One tag of the `f.tags.forEach` loop, short-circuiting after a
`TypeError`. -/
def tagStep (f : FileEntry) (acc : Option Tree) (rawTag : String) : Option Tree :=
  match acc with
  | none => none
  | some t => insertTagChain t (jsSplit (jsReplaceHash rawTag)) f

/-- `if (f.tags) f.tags.forEach(...)`: strip the first `#`, split on `/`,
and walk the tag trie; a `TypeError` in any walk aborts. -/
def processTags (tt : Tree) (f : FileEntry) : Option Tree :=
  match f.tags with
  | none => some tt
  | some tags => tags.foldl (tagStep f) (some tt)

/-- One step of the third `files.forEach` pass: place the file in the folder
trie, then process its tags; a `TypeError` in either part aborts. -/
def placeFile (acc : Option (Tree × Tree)) (f : FileEntry) : Option (Tree × Tree) :=
  match acc with
  | none => none
  | some (ft, tt) =>
    match pushFileAt ft (dirParts f.path) f with
    | none => none
    | some ft2 =>
      match processTags tt f with
      | none => none
      | some tt2 => some (ft2, tt2)

/-- One folder of the second pass' `allFolders.forEach` loop,
short-circuiting after a `TypeError`. -/
def chainStep (acc : Option Tree) (p : String) : Option Tree :=
  match acc with
  | none => none
  | some t => insertChain t (jsSplit p)

/-- The input record `{files, folders}` of `processFileData`
(`data.files || data` and `data.folders || []`). -/
structure FileData where
  files : List FileEntry
  folders : List String

/-- The result record `{masterFileList, folderTree, tagTree}`. -/
structure ProcessResult where
  masterFileList : List FileEntry
  folderTree : Tree
  tagTree : Tree

/-- `processFileData`: collect the folder set, build the folder trie, then
place every file and process its tags. `none` models the uncaught
`TypeError` the JavaScript code throws when a walk meets a missing child or
an inherited `Object.prototype` member. -/
def processFileData (d : FileData) : Option ProcessResult :=
  let files := d.files
  let folders := d.folders
  let ft0 := (allFoldersOf files folders).foldl chainStep (some (Tree.node [] []))
  match ft0 with
  | none => none
  | some ft0 =>
    match files.foldl placeFile (some (ft0, Tree.node [] [])) with
    | none => none
    | some (ft, tt) => some ⟨files, ft, tt⟩

/-- The node reached by following the given keys. -/
def nodeAt : Tree → List String → Option Tree
  | t, [] => some t
  | t, p :: ps =>
    match findVal t.sub p with
    | none => none
    | some c => nodeAt c ps

/-- The `_files` list at an address (empty when the node is missing). -/
def filesAt (t : Tree) (q : List String) : List FileEntry :=
  match nodeAt t q with
  | none => []
  | some n => n.files

/-- A directory-parts list the JavaScript walk survives: the accumulated
folder prefixes re-split to the same parts unless the list starts with an
empty segment and has further segments (e.g. a path with a leading `/`). -/
def goodDir : List String → Bool
  | [] => true
  | [_] => true
  | p :: _ :: _ => p ≠ ""

/-! ### Association-list lemmas -/

theorem findVal_setKey_self {α : Type} (l : List (String × α)) (k : String) (v : α) :
    findVal (setKey l k v) k = some v := by
  induction l with
  | nil => simp [setKey, findVal]
  | cons kv rest ih =>
    by_cases hk : kv.1 = k
    · simp [setKey, findVal, hk]
    · simp [setKey, findVal, hk, ih]

theorem findVal_setKey_ne {α : Type} (l : List (String × α)) (k r : String) (v : α)
    (h : r ≠ k) : findVal (setKey l k v) r = findVal l r := by
  have h2 : ¬ k = r := fun he => h he.symm
  induction l with
  | nil => simp [setKey, findVal, h2]
  | cons kv rest ih =>
    by_cases hk : kv.1 = k
    · simp [setKey, findVal, hk, Ne.symm h, h]
    · simp only [setKey, if_neg hk, findVal]
      by_cases hr : kv.1 = r <;> simp [hr, ih]

theorem findVal_append_some {α : Type} (l m : List (String × α)) (r : String) (c : α)
    (h : findVal l r = some c) : findVal (l ++ m) r = some c := by
  induction l with
  | nil => simp [findVal] at h
  | cons kv rest ih =>
    by_cases hk : kv.1 = r
    · simp [findVal, hk] at h ⊢; exact h
    · simp only [findVal, if_neg hk] at h
      simp only [List.cons_append, findVal, if_neg hk]
      exact ih h

theorem findVal_append_none {α : Type} (l m : List (String × α)) (r : String)
    (h : findVal l r = none) : findVal (l ++ m) r = findVal m r := by
  induction l with
  | nil => simp
  | cons kv rest ih =>
    by_cases hk : kv.1 = r
    · simp [findVal, hk] at h
    · simp only [findVal, if_neg hk] at h
      simp only [List.cons_append, findVal, if_neg hk]
      exact ih h

theorem mem_setKey {α : Type} (l : List (String × α)) (k : String) (v : α)
    (x : String × α) (h : x ∈ setKey l k v) : x = (k, v) ∨ x ∈ l := by
  induction l with
  | nil => simp [setKey] at h; simp [h]
  | cons kv rest ih =>
    by_cases hk : kv.1 = k
    · simp only [setKey, if_pos hk] at h
      rcases List.mem_cons.mp h with h | h
      · exact Or.inl h
      · exact Or.inr (List.mem_cons_of_mem _ h)
    · simp only [setKey, if_neg hk] at h
      rcases List.mem_cons.mp h with h | h
      · exact Or.inr (h ▸ List.mem_cons_self _ _)
      · rcases ih h with h | h
        · exact Or.inl h
        · exact Or.inr (List.mem_cons_of_mem _ h)

theorem findVal_mem {α : Type} (l : List (String × α)) (k : String) (c : α)
    (h : findVal l k = some c) : (k, c) ∈ l := by
  induction l with
  | nil => simp [findVal] at h
  | cons kv rest ih =>
    obtain ⟨k1, v1⟩ := kv
    by_cases hk : k1 = k
    · subst hk
      simp only [findVal, if_pos rfl] at h
      cases h
      exact List.mem_cons_self _ _
    · simp only [findVal] at h
      rw [if_neg hk] at h
      exact List.mem_cons_of_mem _ (ih h)

/-! ### `split('/')` lemmas -/

theorem splitSlash_ne_nil (cs : List Char) : splitSlash cs ≠ [] := by
  induction cs with
  | nil => simp [splitSlash]
  | cons c cs ih =>
    by_cases hc : c = '/'
    · simp [splitSlash, hc]
    · simp only [splitSlash, if_neg hc]
      cases h : splitSlash cs <;> simp

theorem splitSlash_no_slash (cs : List Char) : ∀ l ∈ splitSlash cs, '/' ∉ l := by
  induction cs with
  | nil => intro l hl; simp [splitSlash] at hl; simp [hl]
  | cons c cs ih =>
    intro l hl
    by_cases hc : c = '/'
    · simp only [splitSlash, if_pos hc] at hl
      rcases List.mem_cons.mp hl with h | h
      · simp [h]
      · exact ih l h
    · simp only [splitSlash, if_neg hc] at hl
      cases hs : splitSlash cs with
      | nil => exact absurd hs (splitSlash_ne_nil cs)
      | cons l0 ls =>
        rw [hs] at hl
        rcases List.mem_cons.mp hl with h | h
        · subst h
          intro hmem
          rcases List.mem_cons.mp hmem with h | h
          · exact hc h.symm
          · exact ih l0 (hs ▸ List.mem_cons_self _ _) h
        · exact ih l (hs ▸ List.mem_cons_of_mem _ h)

theorem splitSlash_of_no_slash (l : List Char) (h : '/' ∉ l) : splitSlash l = [l] := by
  induction l with
  | nil => rfl
  | cons c cs ih =>
    have hc : ¬ c = '/' := fun he => h (he ▸ List.mem_cons_self _ _)
    have hcs : '/' ∉ cs := fun hm => h (List.mem_cons_of_mem _ hm)
    simp only [splitSlash, if_neg hc, ih hcs]

theorem splitSlash_append (l rest : List Char) (h : '/' ∉ l) :
    splitSlash (l ++ '/' :: rest) = l :: splitSlash rest := by
  induction l with
  | nil => simp [splitSlash]
  | cons c cs ih =>
    have hc : ¬ c = '/' := fun he => h (he ▸ List.mem_cons_self _ _)
    have hcs : '/' ∉ cs := fun hm => h (List.mem_cons_of_mem _ hm)
    simp only [List.cons_append, splitSlash, if_neg hc, List.append_eq, ih hcs]

/-- Character-level rendering of a nonempty list of pieces joined by `/`. -/
def joinSlashC : List (List Char) → List Char
  | [] => []
  | [l] => l
  | l :: l2 :: ls => l ++ '/' :: joinSlashC (l2 :: ls)

theorem joinSlashC_cons_cons (a b : List Char) (ls : List (List Char)) :
    joinSlashC ((a ++ '/' :: b) :: ls) = a ++ '/' :: joinSlashC (b :: ls) := by
  cases ls with
  | nil => rfl
  | cons l2 ls => simp [joinSlashC]

theorem splitSlash_joinSlashC (parts : List (List Char)) (hne : parts ≠ [])
    (h : ∀ l ∈ parts, '/' ∉ l) : splitSlash (joinSlashC parts) = parts := by
  induction parts with
  | nil => exact absurd rfl hne
  | cons l ls ih =>
    cases ls with
    | nil => exact splitSlash_of_no_slash l (h l (List.mem_cons_self _ _))
    | cons l2 ls2 =>
      rw [show joinSlashC (l :: l2 :: ls2) = l ++ '/' :: joinSlashC (l2 :: ls2) from rfl]
      rw [splitSlash_append _ _ (h l (List.mem_cons_self _ _))]
      rw [ih (by simp) (fun x hx => h x (List.mem_cons_of_mem _ hx))]

theorem mk_data (s : String) : String.mk s.data = s := by
  cases s; rfl

theorem map_mk_data (l : List String) : l.map (fun x => String.mk x.data) = l := by
  induction l with
  | nil => rfl
  | cons a t ih => simp [ih, mk_data]

theorem data_ne_nil (s : String) (h : s ≠ "") : s.data ≠ [] := by
  intro he
  exact h (by rw [← mk_data s, he])

theorem foldl_joinStep_data (rest : List String) (fp : String) (h : fp.data ≠ []) :
    (List.foldl joinStep fp rest).data = joinSlashC (fp.data :: rest.map String.data) := by
  induction rest generalizing fp with
  | nil => rfl
  | cons r rest ih =>
    have hfp : fp ≠ "" := by
      intro he; subst he; exact h rfl
    have hstep : joinStep fp r = fp ++ "/" ++ r := by
      simp [joinStep, hfp]
    have hdata : (fp ++ "/" ++ r).data = fp.data ++ '/' :: r.data := by
      rw [data_append, data_append]
      show fp.data ++ ['/'] ++ r.data = fp.data ++ '/' :: r.data
      simp
    rw [List.foldl_cons, ih (joinStep fp r) (by rw [hstep, hdata]; simp)]
    rw [hstep, hdata, List.map_cons, joinSlashC_cons_cons]
    rfl

/-- For a directory-parts list the accumulation survives (`good` case), the
accumulated folder path re-splits to exactly the original parts. -/
theorem jsSplit_joinParts (p : String) (rest : List String)
    (hns : ∀ x ∈ p :: rest, '/' ∉ x.data)
    (hp : p ≠ "" ∨ rest = []) :
    jsSplit (joinParts (p :: rest)) = p :: rest := by
  by_cases hpe : p = ""
  · rcases hp with hp | hp
    · exact absurd hpe hp
    · subst hp; subst hpe; rfl
  · have h0 : joinParts (p :: rest) = List.foldl joinStep p rest := by
      simp [joinParts, List.foldl_cons, joinStep]
    rw [jsSplit, h0, foldl_joinStep_data rest p (data_ne_nil p hpe)]
    rw [splitSlash_joinSlashC _ (by simp) ?pieces]
    case pieces =>
      intro l hl
      rcases List.mem_cons.mp hl with h | h
      · subst h; exact hns p (List.mem_cons_self _ _)
      · obtain ⟨x, hx, rfl⟩ := List.mem_map.mp h
        exact hns x (List.mem_cons_of_mem _ hx)
    rw [List.map_cons, mk_data, List.map_map]
    congr 1
    simp only [Function.comp_def]
    exact map_mk_data rest

/-! ### Membership in the folder set -/

theorem mem_addFolder (acc : List String) (p : String) : p ∈ addFolder acc p := by
  unfold addFolder
  split
  · assumption
  · simp

theorem addFolder_mono (acc : List String) (p x : String) (h : x ∈ acc) :
    x ∈ addFolder acc p := by
  unfold addFolder
  split
  · exact h
  · simp [h]

theorem addPrefixes_mono (parts : List String) (acc : List String) (fp x : String)
    (h : x ∈ acc) : x ∈ addPrefixes acc fp parts := by
  induction parts generalizing acc fp with
  | nil => exact h
  | cons part rest ih =>
    exact ih _ _ (addFolder_mono _ _ _ h)

theorem mem_addPrefixes (parts : List String) (acc : List String) (fp : String)
    (pre : List String) (hne : pre ≠ []) (hpre : pre <+: parts) :
    List.foldl joinStep fp pre ∈ addPrefixes acc fp parts := by
  induction parts generalizing acc fp pre with
  | nil =>
    rw [List.prefix_nil.mp hpre] at hne
    exact absurd rfl hne
  | cons part rest ih =>
    cases pre with
    | nil => exact absurd rfl hne
    | cons q pre' =>
      obtain ⟨rfl, hpre'⟩ := List.cons_prefix_cons.mp hpre
      cases pre' with
      | nil =>
        simp only [List.foldl_cons, List.foldl_nil, addPrefixes]
        exact addPrefixes_mono _ _ _ _ (mem_addFolder _ _)
      | cons q2 pre2 =>
        simp only [List.foldl_cons, addPrefixes]
        exact ih _ _ (q2 :: pre2) (by simp) hpre'

theorem mem_foldl_addFolder (folders : List String) (acc : List String) (p : String)
    (h : p ∈ folders ∨ p ∈ acc) : p ∈ folders.foldl addFolder acc := by
  induction folders generalizing acc with
  | nil => simpa using h
  | cons q rest ih =>
    rcases h with h | h
    · rcases List.mem_cons.mp h with h | h
      · subst h
        exact ih _ (Or.inr (mem_addFolder _ _))
      · exact ih _ (Or.inl h)
    · exact ih _ (Or.inr (addFolder_mono _ _ _ h))

theorem allFoldersOf_files_mono (files : List FileEntry) (acc : List String) (x : String)
    (h : x ∈ acc) :
    x ∈ files.foldl (fun acc f => addPrefixes acc "" (dirParts f.path)) acc := by
  induction files generalizing acc with
  | nil => exact h
  | cons f rest ih => exact ih _ (addPrefixes_mono _ _ _ _ h)

theorem mem_allFoldersOf_folders (files : List FileEntry) (folders : List String)
    (p : String) (h : p ∈ folders) : p ∈ allFoldersOf files folders :=
  allFoldersOf_files_mono _ _ _ (mem_foldl_addFolder _ _ _ (Or.inl h))

theorem mem_foldl_addPrefixes (files : List FileEntry) (acc : List String)
    (f : FileEntry) (hf : f ∈ files) (pre : List String) (hne : pre ≠ [])
    (hpre : pre <+: dirParts f.path) :
    joinParts pre ∈ files.foldl (fun acc f => addPrefixes acc "" (dirParts f.path)) acc := by
  induction files generalizing acc with
  | nil => simp at hf
  | cons g rest ih =>
    rcases List.mem_cons.mp hf with h | h
    · subst h
      simp only [List.foldl_cons]
      exact allFoldersOf_files_mono _ _ _ (mem_addPrefixes _ _ _ pre hne hpre)
    · simp only [List.foldl_cons]
      exact ih _ h

theorem mem_allFoldersOf_file (files : List FileEntry) (folders : List String)
    (f : FileEntry) (hf : f ∈ files) (pre : List String) (hne : pre ≠ [])
    (hpre : pre <+: dirParts f.path) :
    joinParts pre ∈ allFoldersOf files folders :=
  mem_foldl_addPrefixes files _ f hf pre hne hpre

/-! ### Trie lemmas for `insertChain` -/

theorem nodeAt_nil (t : Tree) : nodeAt t [] = some t := rfl

theorem nodeAt_cons (fs : List FileEntry) (sub : List (String × Tree)) (r : String)
    (q : List String) :
    nodeAt (.node fs sub) (r :: q) =
      (match findVal sub r with
       | none => none
       | some c => nodeAt c q) := rfl

theorem filesAt_nil (fs : List FileEntry) (sub : List (String × Tree)) :
    filesAt (.node fs sub) [] = fs := rfl

theorem filesAt_cons (fs : List FileEntry) (sub : List (String × Tree)) (r : String)
    (q : List String) :
    filesAt (.node fs sub) (r :: q) =
      (match findVal sub r with
       | none => []
       | some c => filesAt c q) := by
  simp only [filesAt, nodeAt_cons]
  cases findVal sub r
  · rfl
  · rfl

theorem subGet_of_some (sub : List (String × Tree)) (k : String) (c : Tree)
    (h : findVal sub k = some c) : subGet sub k = .own c := by
  simp [subGet, h]

theorem subGet_of_none_proto (sub : List (String × Tree)) (k : String)
    (h1 : findVal sub k = none) (h2 : k ∈ protoKeys) : subGet sub k = .inherited := by
  simp [subGet, h1, h2]

theorem subGet_of_none_clean (sub : List (String × Tree)) (k : String)
    (h1 : findVal sub k = none) (h2 : k ∉ protoKeys) : subGet sub k = .missing := by
  simp [subGet, h1, h2]

theorem subGet_own_findVal (sub : List (String × Tree)) (k : String) (c : Tree)
    (h : subGet sub k = .own c) : findVal sub k = some c := by
  unfold subGet at h
  cases hfv : findVal sub k with
  | some c2 =>
    simp only [hfv] at h
    cases h
    rfl
  | none =>
    simp only [hfv] at h
    split at h <;> exact absurd h (by simp)

theorem subGet_missing_findVal (sub : List (String × Tree)) (k : String)
    (h : subGet sub k = .missing) : findVal sub k = none := by
  unfold subGet at h
  cases hfv : findVal sub k with
  | some c2 => simp only [hfv] at h; exact absurd h (by simp)
  | none => rfl

/-- With no `Object.prototype`-named segment, `insertChain` succeeds and
creates the inserted chain: every prefix of the inserted parts addresses a
node afterwards. -/
theorem insertChain_self (ps : List String) (t : Tree)
    (hclean : ∀ s ∈ ps, s ∉ protoKeys) :
    ∃ t', insertChain t ps = some t' ∧
      ∀ pre, pre <+: ps → (nodeAt t' pre).isSome = true := by
  induction ps generalizing t with
  | nil =>
    obtain ⟨fs, sub⟩ := t
    refine ⟨_, rfl, ?_⟩
    intro pre hpre
    rw [List.prefix_nil.mp hpre]
    simp [nodeAt_nil]
  | cons p ps ih =>
    obtain ⟨fs, sub⟩ := t
    have hp : p ∉ protoKeys := hclean p (List.mem_cons_self _ _)
    have hps : ∀ s ∈ ps, s ∉ protoKeys := fun s hs => hclean s (List.mem_cons_of_mem _ hs)
    cases hfv : findVal sub p with
    | some c =>
      obtain ⟨c2, hc2, hcpre⟩ := ih c hps
      refine ⟨.node fs (setKey sub p c2), ?_, ?_⟩
      · simp only [insertChain, subGet_of_some _ _ _ hfv, hc2]
      · intro pre hpre
        cases pre with
        | nil => simp [nodeAt_nil]
        | cons q pre' =>
          obtain ⟨heq, hpre'⟩ := List.cons_prefix_cons.mp hpre
          subst heq
          simp only [nodeAt_cons, Tree.sub, findVal_setKey_self]
          exact hcpre pre' hpre'
    | none =>
      obtain ⟨c2, hc2, hcpre⟩ := ih (.node [] []) hps
      refine ⟨.node fs (sub ++ [(p, c2)]), ?_, ?_⟩
      · simp only [insertChain, subGet_of_none_clean _ _ hfv hp, hc2]
      · intro pre hpre
        cases pre with
        | nil => simp [nodeAt_nil]
        | cons q pre' =>
          obtain ⟨heq, hpre'⟩ := List.cons_prefix_cons.mp hpre
          subst heq
          simp only [nodeAt_cons, Tree.sub]
          rw [findVal_append_none _ _ _ hfv]
          simp only [findVal, if_pos rfl]
          exact hcpre pre' hpre'

/-- A successful `insertChain` never removes nodes: every address reachable
before stays reachable. -/
theorem insertChain_mono (ps : List String) (t t' : Tree)
    (h : insertChain t ps = some t') (q : List String)
    (hq : (nodeAt t q).isSome = true) : (nodeAt t' q).isSome = true := by
  induction ps generalizing t t' q with
  | nil =>
    obtain ⟨fs, sub⟩ := t
    simp only [insertChain] at h
    cases h
    exact hq
  | cons p ps ih =>
    obtain ⟨fs, sub⟩ := t
    cases hsg : subGet sub p with
    | own c =>
      simp only [insertChain, hsg] at h
      cases hc2 : insertChain c ps with
      | none => simp [hc2] at h
      | some c2 =>
        simp only [hc2] at h
        cases h
        have hfv := subGet_own_findVal _ _ _ hsg
        cases q with
        | nil => simp [nodeAt_nil]
        | cons r q' =>
          rw [nodeAt_cons] at hq ⊢
          cases hr : findVal sub r with
          | none => rw [hr] at hq; simp at hq
          | some cr =>
            rw [hr] at hq
            by_cases hrp : r = p
            · subst hrp
              have hcc : cr = c := by
                rw [hr] at hfv
                exact (Option.some.injEq _ _).mp hfv
              subst hcc
              simp only [Tree.sub, findVal_setKey_self]
              exact ih cr c2 hc2 q' hq
            · simp only [Tree.sub, findVal_setKey_ne _ _ _ _ hrp, hr]
              exact hq
    | inherited =>
      cases ps with
      | nil =>
        simp only [insertChain, hsg] at h
        cases h
        exact hq
      | cons a b => simp [insertChain, hsg] at h
    | missing =>
      simp only [insertChain, hsg] at h
      cases hc2 : insertChain (.node [] []) ps with
      | none => simp [hc2] at h
      | some c2 =>
        simp only [hc2] at h
        cases h
        have hfv := subGet_missing_findVal _ _ hsg
        cases q with
        | nil => simp [nodeAt_nil]
        | cons r q' =>
          rw [nodeAt_cons] at hq ⊢
          cases hr : findVal sub r with
          | none => rw [hr] at hq; simp at hq
          | some cr =>
            rw [hr] at hq
            simp only [Tree.sub, findVal_append_some _ _ _ _ hr]
            exact hq

theorem foldl_chainStep_none (l : List String) :
    l.foldl chainStep none = none := by
  induction l with
  | nil => rfl
  | cons p rest ih => exact ih

/-- Folding `insertChain` over a list of clean folder paths succeeds,
preserves reachable addresses, and creates every prefix of the split of
every member. -/
theorem foldl_chainStep_spec (l : List String) (t : Tree)
    (h : ∀ p ∈ l, ∀ s ∈ jsSplit p, s ∉ protoKeys) :
    ∃ t', l.foldl chainStep (some t) = some t' ∧
      (∀ q, (nodeAt t q).isSome = true → (nodeAt t' q).isSome = true) ∧
      (∀ p ∈ l, ∀ pre, pre <+: jsSplit p → (nodeAt t' pre).isSome = true) := by
  induction l generalizing t with
  | nil => exact ⟨t, rfl, fun q hq => hq, by simp⟩
  | cons p rest ih =>
    obtain ⟨t1, ht1, hpre1⟩ := insertChain_self (jsSplit p) t (h p (List.mem_cons_self _ _))
    obtain ⟨t', ht', hmono, hmem⟩ := ih t1 (fun x hx => h x (List.mem_cons_of_mem _ hx))
    have hstep : List.foldl chainStep (some t) (p :: rest) =
        List.foldl chainStep (insertChain t (jsSplit p)) rest := rfl
    refine ⟨t', ?_, ?_, ?_⟩
    · rw [hstep, ht1]; exact ht'
    · intro q hq
      exact hmono q (insertChain_mono _ _ _ ht1 q hq)
    · intro x hx pre hpre
      rcases List.mem_cons.mp hx with hx | hx
      · subst hx
        exact hmono pre (hpre1 pre hpre)
      · exact hmem x hx pre hpre

/-! ### The all-files-empty invariant of the second pass -/

/-- Every node of the tree has an empty `_files` list. -/
inductive AllEmpty : Tree → Prop
  | node : ∀ (sub : List (String × Tree)),
      (∀ kv ∈ sub, AllEmpty kv.2) → AllEmpty (.node [] sub)

theorem allEmpty_leaf : AllEmpty (.node [] []) :=
  AllEmpty.node [] (by simp)

theorem allEmpty_insertChain (ps : List String) (t t' : Tree)
    (h : insertChain t ps = some t') (he : AllEmpty t) : AllEmpty t' := by
  induction ps generalizing t t' with
  | nil =>
    obtain ⟨fs, sub⟩ := t
    simp only [insertChain] at h
    cases h
    exact he
  | cons p ps ih =>
    obtain ⟨fs, sub⟩ := t
    cases he with
    | node _ hsub =>
      cases hsg : subGet sub p with
      | own c =>
        simp only [insertChain, hsg] at h
        cases hc2 : insertChain c ps with
        | none => simp [hc2] at h
        | some c2 =>
          simp only [hc2] at h
          cases h
          refine AllEmpty.node _ (fun kv hkv => ?_)
          rcases mem_setKey _ _ _ _ hkv with hkv | hkv
          · subst hkv
            exact ih c c2 hc2
              (hsub _ (findVal_mem _ _ _ (subGet_own_findVal _ _ _ hsg)))
          · exact hsub _ hkv
      | inherited =>
        cases ps with
        | nil =>
          simp only [insertChain, hsg] at h
          cases h
          exact AllEmpty.node _ hsub
        | cons a b => simp [insertChain, hsg] at h
      | missing =>
        simp only [insertChain, hsg] at h
        cases hc2 : insertChain (.node [] []) ps with
        | none => simp [hc2] at h
        | some c2 =>
          simp only [hc2] at h
          cases h
          refine AllEmpty.node _ (fun kv hkv => ?_)
          rcases List.mem_append.mp hkv with hkv | hkv
          · exact hsub _ hkv
          · simp at hkv
            rw [hkv]
            exact ih _ _ hc2 allEmpty_leaf

theorem allEmpty_foldl_chainStep (l : List String) (t t' : Tree)
    (h : l.foldl chainStep (some t) = some t') (he : AllEmpty t) : AllEmpty t' := by
  induction l generalizing t with
  | nil =>
    simp only [List.foldl_nil] at h
    cases h
    exact he
  | cons p rest ih =>
    have hstep : List.foldl chainStep (some t) (p :: rest) =
        List.foldl chainStep (insertChain t (jsSplit p)) rest := rfl
    rw [hstep] at h
    cases hc : insertChain t (jsSplit p) with
    | none =>
      rw [hc, foldl_chainStep_none] at h
      exact absurd h (by simp)
    | some t1 =>
      rw [hc] at h
      exact ih t1 h (allEmpty_insertChain _ _ _ hc he)

theorem filesAt_allEmpty (q : List String) (t : Tree) (h : AllEmpty t) :
    filesAt t q = [] := by
  induction q generalizing t with
  | nil =>
    cases h with
    | node sub hsub => rfl
  | cons r q' ih =>
    obtain ⟨fs, sub⟩ := t
    rw [filesAt_cons]
    cases hr : findVal sub r with
    | none => rfl
    | some c =>
      cases h with
      | node _ hsub =>
        exact ih c (hsub _ (findVal_mem _ _ _ hr))

/-! ### Placement lemmas for `pushFileAt` -/

/-- The walk of the third pass succeeds exactly when the directory address
exists. -/
theorem pushFileAt_isSome (d : List String) (t : Tree) (f : FileEntry) :
    (pushFileAt t d f).isSome = (nodeAt t d).isSome := by
  induction d generalizing t with
  | nil =>
    obtain ⟨fs, sub⟩ := t
    rfl
  | cons p d' ih =>
    obtain ⟨fs, sub⟩ := t
    rw [nodeAt_cons]
    cases hfv : findVal sub p with
    | none =>
      by_cases hp : p ∈ protoKeys
      · simp [pushFileAt, subGet_of_none_proto _ _ hfv hp]
      · simp [pushFileAt, subGet_of_none_clean _ _ hfv hp]
    | some c =>
      simp only [pushFileAt, subGet_of_some _ _ _ hfv]
      rw [← ih c]
      cases hp : pushFileAt c d' f <;> simp

/-- `pushFileAt` does not change the shape of the tree: the same addresses
stay reachable. -/
theorem nodeAt_pushFileAt (d : List String) (t t' : Tree) (f : FileEntry)
    (h : pushFileAt t d f = some t') (q : List String) :
    (nodeAt t' q).isSome = (nodeAt t q).isSome := by
  induction d generalizing t t' q with
  | nil =>
    obtain ⟨fs, sub⟩ := t
    simp only [pushFileAt] at h
    cases h
    cases q with
    | nil => rfl
    | cons r q' => rw [nodeAt_cons, nodeAt_cons]
  | cons p d' ih =>
    obtain ⟨fs, sub⟩ := t
    simp only [pushFileAt] at h
    cases hsg : subGet sub p with
    | inherited => simp only [hsg] at h; exact absurd h (by simp)
    | missing => simp only [hsg] at h; exact absurd h (by simp)
    | own c =>
      have hfv := subGet_own_findVal _ _ _ hsg
      simp only [hsg] at h
      cases hpc : pushFileAt c d' f with
      | none => simp only [hpc] at h; exact absurd h (by simp)
      | some c2 =>
        simp only [hpc] at h
        cases h
        cases q with
        | nil => rfl
        | cons r q' =>
          rw [nodeAt_cons, nodeAt_cons]
          by_cases hrp : r = p
          · subst hrp
            simp only [findVal_setKey_self, hfv]
            exact ih c c2 hpc q'
          · rw [findVal_setKey_ne _ _ _ _ hrp]

/-- `pushFileAt` appends the file to the `_files` list at exactly the pushed
address and leaves every other `_files` list unchanged. -/
theorem filesAt_pushFileAt (d : List String) (t t' : Tree) (f : FileEntry)
    (h : pushFileAt t d f = some t') (q : List String) :
    filesAt t' q = (if q = d then filesAt t d ++ [f] else filesAt t q) := by
  induction d generalizing t t' q with
  | nil =>
    obtain ⟨fs, sub⟩ := t
    simp only [pushFileAt] at h
    cases h
    cases q with
    | nil => simp [filesAt_nil]
    | cons r q' =>
      rw [if_neg (by simp)]
      rw [filesAt_cons, filesAt_cons]
  | cons p d' ih =>
    obtain ⟨fs, sub⟩ := t
    simp only [pushFileAt] at h
    cases hsg : subGet sub p with
    | inherited => simp only [hsg] at h; exact absurd h (by simp)
    | missing => simp only [hsg] at h; exact absurd h (by simp)
    | own c =>
      have hfv := subGet_own_findVal _ _ _ hsg
      simp only [hsg] at h
      cases hpc : pushFileAt c d' f with
      | none => simp only [hpc] at h; exact absurd h (by simp)
      | some c2 =>
        simp only [hpc] at h
        cases h
        cases q with
        | nil =>
          rw [if_neg (by simp)]
          rw [filesAt_nil, filesAt_nil]
        | cons r q' =>
          by_cases hrp : r = p
          · subst hrp
            simp only [filesAt_cons, findVal_setKey_self, hfv, ih c c2 hpc q',
              List.cons.injEq, true_and]
          · simp only [filesAt_cons, findVal_setKey_ne _ _ _ _ hrp]
            rw [if_neg (by simp [hrp])]

/-! ### The third pass: folding `placeFile` -/

/-- Invariant of the third `files.forEach` pass: provided every remaining
file's directory address exists and every remaining file's tag walks
succeed, the fold succeeds, preserves the folder-tree shape, places every
processed file at its directory address, and puts nothing anywhere else. -/
theorem placeFile_fold (rest : List FileEntry) (T tt : Tree) (placed : List FileEntry)
    (hpres : ∀ f ∈ rest, (nodeAt T (dirParts f.path)).isSome = true)
    (htags : ∀ f ∈ rest, ∀ t : Tree, ∃ t2, processTags t f = some t2)
    (hplaced : ∀ f ∈ placed, f ∈ filesAt T (dirParts f.path))
    (hsound : ∀ f q, f ∈ filesAt T q → f ∈ placed ∧ q = dirParts f.path) :
    ∃ T' tt', rest.foldl placeFile (some (T, tt)) = some (T', tt') ∧
      (∀ q, (nodeAt T' q).isSome = (nodeAt T q).isSome) ∧
      (∀ f ∈ placed ++ rest, f ∈ filesAt T' (dirParts f.path)) ∧
      (∀ f q, f ∈ filesAt T' q → f ∈ placed ++ rest ∧ q = dirParts f.path) := by
  induction rest generalizing T tt placed with
  | nil =>
    refine ⟨T, tt, rfl, fun q => rfl, ?_, ?_⟩
    · simpa using hplaced
    · intro f q hf
      have := hsound f q hf
      simpa using this
  | cons g rest ih =>
    have hg := hpres g (List.mem_cons_self _ _)
    have hs : (pushFileAt T (dirParts g.path) g).isSome = true := by
      rw [pushFileAt_isSome]; exact hg
    obtain ⟨T2, hT2⟩ := Option.isSome_iff_exists.mp hs
    obtain ⟨tt2, htt2⟩ := htags g (List.mem_cons_self _ _) tt
    have hfold : (g :: rest).foldl placeFile (some (T, tt)) =
        rest.foldl placeFile (some (T2, tt2)) := by
      simp only [List.foldl_cons, placeFile, hT2, htt2]
    have hshape := nodeAt_pushFileAt _ _ _ _ hT2
    have hfiles := filesAt_pushFileAt _ _ _ _ hT2
    have hpres2 : ∀ f ∈ rest, (nodeAt T2 (dirParts f.path)).isSome = true := by
      intro f hf
      rw [hshape]
      exact hpres f (List.mem_cons_of_mem _ hf)
    have htags2 : ∀ f ∈ rest, ∀ t : Tree, ∃ t2, processTags t f = some t2 :=
      fun f hf => htags f (List.mem_cons_of_mem _ hf)
    have hplaced2 : ∀ f ∈ placed ++ [g], f ∈ filesAt T2 (dirParts f.path) := by
      intro f hf
      rcases List.mem_append.mp hf with hf | hf
      · rw [hfiles]
        by_cases hd : dirParts f.path = dirParts g.path
        · rw [if_pos hd]
          refine List.mem_append_left _ ?_
          rw [← hd]
          exact hplaced f hf
        · rw [if_neg hd]
          exact hplaced f hf
      · simp only [List.mem_singleton] at hf
        subst hf
        rw [hfiles, if_pos rfl]
        exact List.mem_append_right _ (by simp)
    have hsound2 : ∀ f q, f ∈ filesAt T2 q → f ∈ placed ++ [g] ∧ q = dirParts f.path := by
      intro f q hf
      rw [hfiles] at hf
      by_cases hq : q = dirParts g.path
      · rw [if_pos hq] at hf
        rcases List.mem_append.mp hf with hf | hf
        · have h2 := hsound f (dirParts g.path) hf
          exact ⟨List.mem_append_left _ h2.1, hq.trans h2.2⟩
        · simp only [List.mem_singleton] at hf
          subst hf
          exact ⟨List.mem_append_right _ (by simp), hq⟩
      · rw [if_neg hq] at hf
        have h2 := hsound f q hf
        exact ⟨List.mem_append_left _ h2.1, h2.2⟩
    obtain ⟨T', tt', hT', hshape', hplaced', hsound'⟩ :=
      ih T2 tt2 (placed ++ [g]) hpres2 htags2 hplaced2 hsound2
    refine ⟨T', tt', by rw [hfold]; exact hT', ?_, ?_, ?_⟩
    · intro q
      rw [hshape' q, hshape q]
    · intro f hf
      apply hplaced'
      rw [List.append_cons] at hf
      exact hf
    · intro f q hf
      have h2 := hsound' f q hf
      refine ⟨?_, h2.2⟩
      rw [List.append_cons]
      exact h2.1

theorem jsSplit_no_slash (s : String) : ∀ x ∈ jsSplit s, '/' ∉ x.data := by
  intro x hx
  obtain ⟨l, hl, rfl⟩ := List.mem_map.mp hx
  simpa using splitSlash_no_slash s.data l hl

theorem goodDir_spec (p : String) (rest : List String) (h : goodDir (p :: rest) = true) :
    p ≠ "" ∨ rest = [] := by
  cases rest with
  | nil => exact Or.inr rfl
  | cons q rs =>
    left
    simpa [goodDir] using h

/-! ### Completeness of the folder set and tag-walk success -/

theorem mem_addFolder_cases (acc : List String) (p x : String) (h : x ∈ addFolder acc p) :
    x = p ∨ x ∈ acc := by
  unfold addFolder at h
  split at h
  · exact Or.inr h
  · rcases List.mem_append.mp h with h | h
    · exact Or.inr h
    · simp at h
      exact Or.inl h

theorem mem_addPrefixes_cases (parts : List String) (acc : List String) (fp x : String)
    (h : x ∈ addPrefixes acc fp parts) :
    x ∈ acc ∨ ∃ pre, pre ≠ [] ∧ pre <+: parts ∧ x = List.foldl joinStep fp pre := by
  induction parts generalizing acc fp with
  | nil => exact Or.inl h
  | cons part rest ih =>
    simp only [addPrefixes] at h
    rcases ih _ _ h with h | ⟨pre, hne, hpre, hx⟩
    · rcases mem_addFolder_cases _ _ _ h with h | h
      · refine Or.inr ⟨[part], by simp, ⟨rest, rfl⟩, ?_⟩
        rw [h]
        rfl
      · exact Or.inl h
    · refine Or.inr ⟨part :: pre, by simp, List.cons_prefix_cons.mpr ⟨rfl, hpre⟩, ?_⟩
      rw [hx]
      rfl

theorem mem_foldl_addFolder_cases (folders : List String) (acc : List String) (x : String)
    (h : x ∈ folders.foldl addFolder acc) : x ∈ folders ∨ x ∈ acc := by
  induction folders generalizing acc with
  | nil => exact Or.inr h
  | cons q rest ih =>
    simp only [List.foldl_cons] at h
    rcases ih _ h with h | h
    · exact Or.inl (List.mem_cons_of_mem _ h)
    · rcases mem_addFolder_cases _ _ _ h with h | h
      · exact Or.inl (h ▸ List.mem_cons_self _ _)
      · exact Or.inr h

theorem mem_foldl_addPrefixes_cases (files : List FileEntry) (acc : List String) (x : String)
    (h : x ∈ files.foldl (fun acc f => addPrefixes acc "" (dirParts f.path)) acc) :
    x ∈ acc ∨
      ∃ f ∈ files, ∃ pre, pre ≠ [] ∧ pre <+: dirParts f.path ∧ x = joinParts pre := by
  induction files generalizing acc with
  | nil => exact Or.inl h
  | cons g rest ih =>
    simp only [List.foldl_cons] at h
    rcases ih _ h with h | ⟨f, hf, pre, hne, hpre, hx⟩
    · rcases mem_addPrefixes_cases _ _ _ _ h with h | ⟨pre, hne, hpre, hx⟩
      · exact Or.inl h
      · exact Or.inr ⟨g, List.mem_cons_self _ _, pre, hne, hpre, hx⟩
    · exact Or.inr ⟨f, List.mem_cons_of_mem _ hf, pre, hne, hpre, hx⟩

/-- Every member of the folder set is an input folder or an accumulated
prefix of some file's directory path. -/
theorem mem_allFoldersOf_cases (files : List FileEntry) (folders : List String)
    (x : String) (h : x ∈ allFoldersOf files folders) :
    x ∈ folders ∨
      ∃ f ∈ files, ∃ pre, pre ≠ [] ∧ pre <+: dirParts f.path ∧ x = joinParts pre := by
  unfold allFoldersOf at h
  rcases mem_foldl_addPrefixes_cases _ _ _ h with h | h
  · rcases mem_foldl_addFolder_cases _ _ _ h with h | h
    · exact Or.inl h
    · simp at h
  · exact Or.inr h

/-- For a file whose directory parts survive the accumulation (`goodDir`),
the accumulated path of any nonempty prefix re-splits to that prefix. -/
theorem jsSplit_joinParts_of_good (f : FileEntry) (pre : List String)
    (hgoodf : goodDir (dirParts f.path) = true)
    (hne : pre ≠ []) (hpre : pre <+: dirParts f.path) :
    jsSplit (joinParts pre) = pre := by
  cases pre with
  | nil => exact absurd rfl hne
  | cons p0 pre' =>
    have hns : ∀ x ∈ p0 :: pre', '/' ∉ x.data := by
      intro x hx
      refine jsSplit_no_slash f.path x ?_
      exact (List.dropLast_sublist (jsSplit f.path)).subset (hpre.sublist.subset hx)
    have hp : p0 ≠ "" ∨ pre' = [] := by
      cases hd : dirParts f.path with
      | nil =>
        rw [hd] at hpre
        exact absurd (List.prefix_nil.mp hpre) (by simp)
      | cons q0 rest =>
        rw [hd] at hpre
        obtain ⟨heq, hpre2⟩ := List.cons_prefix_cons.mp hpre
        rcases goodDir_spec q0 rest (by rw [hd] at hgoodf; exact hgoodf) with hq | hq
        · exact Or.inl (by rw [heq]; exact hq)
        · subst hq
          exact Or.inr (List.prefix_nil.mp hpre2)
    exact jsSplit_joinParts p0 pre' hns hp

/-- With no `Object.prototype`-named segment, the tag walk succeeds. -/
theorem insertTagChain_some (ps : List String) (f : FileEntry)
    (h : ∀ s ∈ ps, s ∉ protoKeys) : ∀ t : Tree, ∃ t2, insertTagChain t ps f = some t2 := by
  induction ps with
  | nil =>
    intro t
    obtain ⟨fs, sub⟩ := t
    exact ⟨_, rfl⟩
  | cons p ps ih =>
    intro t
    obtain ⟨fs, sub⟩ := t
    have hp : p ∉ protoKeys := h p (List.mem_cons_self _ _)
    have hps : ∀ s ∈ ps, s ∉ protoKeys := fun s hs => h s (List.mem_cons_of_mem _ hs)
    cases hfv : findVal sub p with
    | some c =>
      obtain ⟨c2, hc2⟩ := ih hps (.node (c.files ++ [f]) c.sub)
      refine ⟨.node fs (setKey sub p c2), ?_⟩
      simp only [insertTagChain, subGet_of_some _ _ _ hfv, hc2]
    | none =>
      obtain ⟨c2, hc2⟩ := ih hps (.node [f] [])
      refine ⟨.node fs (sub ++ [(p, c2)]), ?_⟩
      simp only [insertTagChain, subGet_of_none_clean _ _ hfv hp, hc2]

theorem foldl_tagStep_some (f : FileEntry) (tags : List String)
    (h : ∀ tg ∈ tags, ∀ s ∈ jsSplit (jsReplaceHash tg), s ∉ protoKeys) :
    ∀ t : Tree, ∃ t2, tags.foldl (tagStep f) (some t) = some t2 := by
  induction tags with
  | nil =>
    intro t
    exact ⟨t, rfl⟩
  | cons tg rest ih =>
    intro t
    obtain ⟨t1, ht1⟩ :=
      insertTagChain_some (jsSplit (jsReplaceHash tg)) f (h tg (List.mem_cons_self _ _)) t
    have hstep : List.foldl (tagStep f) (some t) (tg :: rest) =
        List.foldl (tagStep f) (insertTagChain t (jsSplit (jsReplaceHash tg)) f) rest := rfl
    rw [hstep, ht1]
    exact ih (fun x hx => h x (List.mem_cons_of_mem _ hx)) t1

theorem processTags_some (f : FileEntry)
    (h : ∀ tg ∈ f.tags.getD [], ∀ s ∈ jsSplit (jsReplaceHash tg), s ∉ protoKeys)
    (t : Tree) : ∃ t2, processTags t f = some t2 := by
  unfold processTags
  cases hft : f.tags with
  | none => exact ⟨t, rfl⟩
  | some tags =>
    refine foldl_tagStep_some f tags ?_ t
    rw [hft] at h
    simpa using h

/-- **C9 (amended)** (proved): for every input in which no file's directory
path begins with an empty segment followed by further segments (`goodDir`)
and no file's directory segment, tag segment or folders-entry segment is an
`Object.prototype` property name, `processFileData` returns:
`masterFileList` is the input files list unchanged, the folder tree has a
node for every entry of the input folders list and for every prefix of
every file's directory path, every input file is in the `_files` list of
the node addressed by its directory path (the root when the path has no
`/`), and no file occurs in any other node's `_files` list. -/
theorem processFileData_tree_correct (d : FileData)
    (hgood : ∀ f ∈ d.files, goodDir (dirParts f.path) = true)
    (hcdir : ∀ f ∈ d.files, ∀ s ∈ dirParts f.path, s ∉ protoKeys)
    (hctag : ∀ f ∈ d.files, ∀ tg ∈ f.tags.getD [],
      ∀ s ∈ jsSplit (jsReplaceHash tg), s ∉ protoKeys)
    (hcfold : ∀ p ∈ d.folders, ∀ s ∈ jsSplit p, s ∉ protoKeys) :
    ∃ r, processFileData d = some r ∧
      r.masterFileList = d.files ∧
      (∀ p ∈ d.folders, (nodeAt r.folderTree (jsSplit p)).isSome = true) ∧
      (∀ f ∈ d.files, ∀ pre, pre <+: dirParts f.path →
        (nodeAt r.folderTree pre).isSome = true) ∧
      (∀ f ∈ d.files, f ∈ filesAt r.folderTree (dirParts f.path)) ∧
      (∀ f q, f ∈ filesAt r.folderTree q → f ∈ d.files ∧ q = dirParts f.path) := by
  classical
  have hallclean : ∀ p ∈ allFoldersOf d.files d.folders,
      ∀ s ∈ jsSplit p, s ∉ protoKeys := by
    intro p hp
    rcases mem_allFoldersOf_cases _ _ _ hp with h | ⟨f, hf, pre, hne, hpre, hx⟩
    · exact hcfold p h
    · subst hx
      rw [jsSplit_joinParts_of_good f pre (hgood f hf) hne hpre]
      intro s hs
      exact hcdir f hf s (hpre.sublist.subset hs)
  obtain ⟨ft0, hft0, hmono0, hmem0⟩ :=
    foldl_chainStep_spec (allFoldersOf d.files d.folders) (Tree.node [] []) hallclean
  have hpre0 : ∀ f ∈ d.files, ∀ pre, pre <+: dirParts f.path →
      (nodeAt ft0 pre).isSome = true := by
    intro f hf pre hpre
    cases hd : dirParts f.path with
    | nil =>
      rw [hd] at hpre
      rw [List.prefix_nil.mp hpre]
      simp [nodeAt_nil]
    | cons p rest =>
      have hne : dirParts f.path ≠ [] := by rw [hd]; simp
      have hmem : joinParts (dirParts f.path) ∈ allFoldersOf d.files d.folders :=
        mem_allFoldersOf_file d.files d.folders f hf _ hne List.prefix_rfl
      refine hmem0 _ hmem pre ?_
      rw [jsSplit_joinParts_of_good f _ (hgood f hf) hne List.prefix_rfl]
      exact hpre
  have hfolders0 : ∀ p ∈ d.folders, (nodeAt ft0 (jsSplit p)).isSome = true := by
    intro p hp
    exact hmem0 p (mem_allFoldersOf_folders d.files d.folders p hp) _ List.prefix_rfl
  have hempty : AllEmpty ft0 := allEmpty_foldl_chainStep _ _ _ hft0 allEmpty_leaf
  have htagsO : ∀ f ∈ d.files, ∀ t : Tree, ∃ t2, processTags t f = some t2 :=
    fun f hf t => processTags_some f (hctag f hf) t
  obtain ⟨T', tt', hfold, hshape, hplaced, hsound⟩ :=
    placeFile_fold d.files ft0 (Tree.node [] []) []
      (fun f hf => hpre0 f hf _ List.prefix_rfl)
      htagsO
      (by simp)
      (by
        intro f q hf
        rw [filesAt_allEmpty q ft0 hempty] at hf
        simp at hf)
  refine ⟨⟨d.files, T', tt'⟩, ?_, rfl, ?_, ?_, ?_, ?_⟩
  · simp only [processFileData, hft0, hfold]
  · intro p hp
    rw [hshape]
    exact hfolders0 p hp
  · intro f hf pre hpre
    rw [hshape]
    exact hpre0 f hf pre hpre
  · intro f hf
    exact hplaced f (by simpa using hf)
  · intro f q hf
    have h2 := hsound f q hf
    exact ⟨by simpa using h2.1, h2.2⟩

/-- **C9 counterexample**: the claim fails on four kinds of
perfectly-'/'-separated input. A path with a leading `/` crashes the walk
(`TypeError`, modelled `none`) because the prefix accumulation collapses
the empty segment; a directory segment named after an `Object.prototype`
member (`toString`) crashes the placement walk because the truthy inherited
member short-circuits node creation; a tag `#toString` crashes the tag
walk; and a folders entry `toString` is silently skipped, so the returned
tree is **missing** that node. -/
theorem processFileData_claim_counterexample :
    processFileData ⟨[⟨"/a/b.md", none⟩], []⟩ = none ∧
    processFileData ⟨[⟨"toString/a.md", none⟩], []⟩ = none ∧
    processFileData ⟨[⟨"a.md", some ["#toString"]⟩], []⟩ = none ∧
    (processFileData ⟨[], ["toString"]⟩).map
      (fun r => (nodeAt r.folderTree (jsSplit "toString")).isSome) = some false :=
  ⟨rfl, rfl, rfl, rfl⟩

/-- Witness for the amended C9 at a concrete vault listing. -/
theorem processFileData_tree_correct_witness :
    (∀ f ∈ ([⟨"notes/sub/a.md", some ["#tag/x"]⟩, ⟨"b.md", none⟩] : List FileEntry),
      goodDir (dirParts f.path) = true) ∧
    (∀ f ∈ ([⟨"notes/sub/a.md", some ["#tag/x"]⟩, ⟨"b.md", none⟩] : List FileEntry),
      ∀ s ∈ dirParts f.path, s ∉ protoKeys) ∧
    (∀ f ∈ ([⟨"notes/sub/a.md", some ["#tag/x"]⟩, ⟨"b.md", none⟩] : List FileEntry),
      ∀ tg ∈ f.tags.getD [], ∀ s ∈ jsSplit (jsReplaceHash tg), s ∉ protoKeys) ∧
    (∀ p ∈ ["zz"], ∀ s ∈ jsSplit p, s ∉ protoKeys) ∧
    (∃ r, processFileData ⟨[⟨"notes/sub/a.md", some ["#tag/x"]⟩, ⟨"b.md", none⟩], ["zz"]⟩ =
        some r ∧
      r.masterFileList = [⟨"notes/sub/a.md", some ["#tag/x"]⟩, ⟨"b.md", none⟩] ∧
      (∀ p ∈ ["zz"], (nodeAt r.folderTree (jsSplit p)).isSome = true) ∧
      (∀ f ∈ ([⟨"notes/sub/a.md", some ["#tag/x"]⟩, ⟨"b.md", none⟩] : List FileEntry),
        ∀ pre, pre <+: dirParts f.path → (nodeAt r.folderTree pre).isSome = true) ∧
      (∀ f ∈ ([⟨"notes/sub/a.md", some ["#tag/x"]⟩, ⟨"b.md", none⟩] : List FileEntry),
        f ∈ filesAt r.folderTree (dirParts f.path)) ∧
      (∀ f q, f ∈ filesAt r.folderTree q →
        f ∈ ([⟨"notes/sub/a.md", some ["#tag/x"]⟩, ⟨"b.md", none⟩] : List FileEntry) ∧
        q = dirParts f.path)) :=
  ⟨by decide, by decide, by decide, by decide,
   processFileData_tree_correct
    ⟨[⟨"notes/sub/a.md", some ["#tag/x"]⟩, ⟨"b.md", none⟩], ["zz"]⟩
    (by decide) (by decide) (by decide) (by decide)⟩

end NoteRelay
